import Mathlib

/-!
Verification of the ancestor-feerate package partitioner (`pa-demo.py`).

The source program takes a package of transactions as a DAG (`graph`, a dict
mapping each txid to the list of its direct parents, supplied in topological
order), a per-transaction fee/size table and a minimum feerate, and separates
the transactions into those whose ancestor feerate is at least the threshold
and those below it, via an iterative fixed-point loop.

The embedding below follows the Python operationally: dicts become association
lists (preserving insertion order), the mutable table of ancestor aggregates
becomes a function `Node → Option fee_sz`, Python exceptions (`KeyError`,
`ZeroDivisionError`) become an `Except PyErr` result, and the two unbounded
loops (the while-progress loop and the BFS closure) take an explicit fuel
argument, chosen large enough that running out is provably impossible; fuel
exhaustion is reported as a distinguished error value.  Fee, size and the
threshold are exact rationals.
-/

set_option maxRecDepth 4000

namespace PaDemo

abbrev Node := String

/-- A feerate, except keep the fee and the size separate, so that
feerates can be added.  (Class `fee_sz` in the source.) -/
structure fee_sz where
  sats : ℚ
  size : ℚ
deriving DecidableEq

instance : Add fee_sz := ⟨fun a v => ⟨a.sats + v.sats, a.size + v.size⟩⟩

/-- `fee_sz.feerate` from the source: `self.sats / self.size`. -/
def fee_sz.feerate (a : fee_sz) : ℚ := a.sats / a.size

/-- The package graph: each transaction with the list of its direct parents,
in the enumeration order of the Python dict. -/
abbrev Graph := List (Node × List Node)

/-- The keys of the graph dict, in enumeration order. -/
def keys (g : Graph) : List Node := g.map (·.1)

/-- Dict lookup `graph[t]`: `none` models a `KeyError`. -/
def lookupG (g : Graph) (v : Node) : Option (List Node) :=
  (g.find? (fun e => e.1 == v)).map (·.2)

/-- The parent list of a node, defaulting to `[]` off the key set
(only ever used at keys). -/
def parentsOf (g : Graph) (v : Node) : List Node := (lookupG g v).getD []

/-- The Python exceptions the program can raise, plus fuel exhaustion of the
embedding (proved unreachable for the fuel bounds used). -/
inductive PyErr where
  | keyError
  | zeroDivision
  | fuelOut
deriving DecidableEq

/-- The mutable dict `ancestor_fee_szs`. -/
abbrev Tbl := Node → Option fee_sz

def Tbl.set (tbl : Tbl) (v : Node) (a : fee_sz) : Tbl :=
  fun w => if w = v then some a else tbl w

/-- The inner loop of lines 164-166: add to `acc` the stored aggregates of the
parents that are not in the accepted set; a missing table entry is a
`KeyError`. -/
def sumParentsE (tbl : Tbl) (H : Finset Node) : List Node → fee_sz → Except PyErr fee_sz
  | [], acc => .ok acc
  | p :: ps, acc =>
    if p ∈ H then sumParentsE tbl H ps acc
    else
      match tbl p with
      | some a => sumParentsE tbl H ps (acc + a)
      | none => .error .keyError

/-- The BFS of lines 171-178: move the seed and all of its ancestors reachable
through not-yet-accepted nodes into the accepted set.  `todo` is the work
queue; a node absent from the graph is a `KeyError`. -/
def closure (g : Graph) : ℕ → List Node → Finset Node → Except PyErr (Finset Node)
  | _, [], H => .ok H
  | 0, _ :: _, _ => .error .fuelOut
  | fuel + 1, t :: todo, H =>
    if t ∈ H then closure g fuel todo H
    else
      match lookupG g t with
      | none => .error .keyError
      | some ps => closure g fuel (todo ++ ps) (insert t H)

/-- One pass of the while loop (lines 159-179): scan the remaining entries in
enumeration order, skipping accepted nodes; compute and store each node's
ancestor aggregate; on the first node whose feerate reaches the threshold,
accept its closure and report progress (the `break` of line 179). -/
def passRun (g : Graph) (fs : Node → fee_sz) (θ : ℚ) (clFuel : ℕ) :
    List (Node × List Node) → Tbl → Finset Node → Except PyErr (Tbl × Finset Node × Bool)
  | [], tbl, H => .ok (tbl, H, false)
  | (txid, ps) :: rest, tbl, H =>
    if txid ∈ H then passRun g fs θ clFuel rest tbl H
    else
      match sumParentsE tbl H ps (fs txid) with
      | .error e => .error e
      | .ok agg =>
        let tbl1 := tbl.set txid agg
        if agg.size = 0 then .error .zeroDivision
        else if agg.feerate < θ then passRun g fs θ clFuel rest tbl1 H
        else
          match closure g clFuel [txid] H with
          | .error e => .error e
          | .ok H1 => .ok (tbl1, H1, true)

/-- The while loop of lines 156-179; also counts the number of passes run. -/
def loop (g : Graph) (fs : Node → fee_sz) (θ : ℚ) (clFuel : ℕ) :
    ℕ → Tbl → Finset Node → Except PyErr (Tbl × Finset Node × ℕ)
  | 0, _, _ => .error .fuelOut
  | fuel + 1, tbl, H =>
    match passRun g fs θ clFuel g tbl H with
    | .error e => .error e
    | .ok (tbl1, H1, progress) =>
      if progress then
        match loop g fs θ clFuel fuel tbl1 H1 with
        | .error e => .error e
        | .ok (tbl2, H2, n) => .ok (tbl2, H2, n + 1)
      else .ok (tbl1, H1, 1)

/-- The comprehension of line 181: the rejected transactions with their final
ancestor aggregates, in enumeration order. -/
def resultLtE (tbl : Tbl) (H : Finset Node) : List (Node × List Node) →
    Except PyErr (List (Node × fee_sz))
  | [] => .ok []
  | (v, _) :: rest =>
    if v ∈ H then resultLtE tbl H rest
    else
      match tbl v with
      | none => .error .keyError
      | some a =>
        match resultLtE tbl H rest with
        | .error e => .error e
        | .ok l => .ok ((v, a) :: l)

/-- Total number of parent-list slots of the graph. -/
def totalParentSlots (g : Graph) : ℕ := (g.map (fun e => e.2.length)).sum

/-- Fuel for the BFS closure: 1 pop for the seed plus at most one push per
parent slot plus slack. -/
def clFuelOf (g : Graph) : ℕ := g.length + totalParentSlots g + 2

/-- `partition_by_feerate` (lines 152-182): separate the transactions in the
graph into those with ancestor feerate greater than or equal to the given
feerate, and less than.  Returns `(result_lt, result_ge)`. -/
def partition_by_feerate (graph : Graph) (fees_sizes : Node → fee_sz) (feerate : ℚ) :
    Except PyErr (List (Node × fee_sz) × List Node) :=
  match loop graph fees_sizes feerate (clFuelOf graph) (graph.length + 1) (fun _ => none) ∅ with
  | .error e => .error e
  | .ok (tbl, H, _) =>
    match resultLtE tbl H graph with
    | .error e => .error e
    | .ok lt => .ok (lt, (keys graph).filter (fun v => v ∈ H))

/-- The number of passes the while loop runs before halting. -/
def partitionPasses (graph : Graph) (fees_sizes : Node → fee_sz) (feerate : ℚ) :
    Except PyErr ℕ :=
  match loop graph fees_sizes feerate (clFuelOf graph) (graph.length + 1) (fun _ => none) ∅ with
  | .error e => .error e
  | .ok (_, _, n) => .ok n

/-- The effective-value decrement of lines 220-224 of the test harness:
for each rejected transaction, `threshold * aggregate.size - aggregate.sats`. -/
def ev_decrement (θ : ℚ) (result_lt : List (Node × fee_sz)) : List (Node × ℚ) :=
  result_lt.map (fun e => (e.1, θ * e.2.size - e.2.sats))

/-! ### Input validity

The source requires the dict to be topologically sorted ("must be
topologically sorted", line 22): every parent appears as an earlier key.
This yields acyclicity, key uniqueness and parent presence.  Sizes must be
positive for feerates to be meaningful (spec §3). -/

/-- `topoOK seen g`: every entry's key is new and all its parents are among
the earlier keys (`seen`). -/
def topoOK : List Node → Graph → Bool
  | _, [] => true
  | seen, (v, ps) :: rest =>
    !(seen.contains v) && ps.all (fun p => seen.contains p) && topoOK (v :: seen) rest

/-- A valid input: topologically sorted graph and positive sizes. -/
def ValidInput (g : Graph) (fs : Node → fee_sz) : Prop :=
  topoOK [] g = true ∧ ∀ e ∈ g, 0 < (fs e.1).size

instance (g : Graph) (fs : Node → fee_sz) : Decidable (ValidInput g fs) := by
  unfold ValidInput; infer_instance

/-! ### Canonical ancestor aggregates

For a fixed accepted set `H`, the aggregate each node would receive in a full
scan is characterized by the recursion of lines 162-167:
`agg v = fs v + sum of agg p over parents p of v outside H`.
On a topologically sorted graph this has a unique solution, which we compute
by a single left-to-right fold. -/

instance : Zero fee_sz := ⟨⟨0, 0⟩⟩

instance : AddCommMonoid fee_sz where
  add_assoc a b c := by
    obtain ⟨a1, a2⟩ := a
    obtain ⟨b1, b2⟩ := b
    obtain ⟨c1, c2⟩ := c
    show fee_sz.mk (a1 + b1 + c1) (a2 + b2 + c2) =
      fee_sz.mk (a1 + (b1 + c1)) (a2 + (b2 + c2))
    simp [add_assoc]
  zero_add a := by
    obtain ⟨a1, a2⟩ := a
    show fee_sz.mk (0 + a1) (0 + a2) = fee_sz.mk a1 a2
    simp
  add_zero a := by
    obtain ⟨a1, a2⟩ := a
    show fee_sz.mk (a1 + 0) (a2 + 0) = fee_sz.mk a1 a2
    simp
  add_comm a b := by
    obtain ⟨a1, a2⟩ := a
    obtain ⟨b1, b2⟩ := b
    show fee_sz.mk (a1 + b1) (a2 + b2) = fee_sz.mk (b1 + a1) (b2 + a2)
    simp [add_comm]
  nsmul := nsmulRec

/-- Total-function version of the parent-aggregate summation loop. -/
def sumParentsQ (t : Node → fee_sz) (H : Finset Node) : List Node → fee_sz → fee_sz
  | [], acc => acc
  | p :: ps, acc =>
    if p ∈ H then sumParentsQ t H ps acc else sumParentsQ t H ps (acc + t p)

def updateF (t : Node → fee_sz) (v : Node) (a : fee_sz) : Node → fee_sz :=
  fun w => if w = v then a else t w

/-- Left-to-right fold computing each node's aggregate from the already
computed aggregates of its (earlier) parents. -/
def aggAcc (fs : Node → fee_sz) (H : Finset Node) : Graph → (Node → fee_sz) → (Node → fee_sz)
  | [], t => t
  | (v, ps) :: rest, t => aggAcc fs H rest (updateF t v (sumParentsQ t H ps (fs v)))

/-- The canonical ancestor aggregate of each node relative to accepted set `H`. -/
def aggOf (g : Graph) (fs : Node → fee_sz) (H : Finset Node) : Node → fee_sz :=
  aggAcc fs H g fs

/-! ### The ancestor relation -/

/-- `Anc g a v`: `a` is a strict ancestor of `v` (transitive closure of the
direct-parent relation). -/
def Anc (g : Graph) (a v : Node) : Prop :=
  Relation.TransGen (fun x y => x ∈ parentsOf g y) a v

/-! ### Feerate surplus

`surOf g fs θ H v = sats − θ·size` of the canonical aggregate: nonnegative
exactly when the aggregate feerate reaches the threshold (for positive
aggregate size). -/

def surOf (g : Graph) (fs : Node → fee_sz) (θ : ℚ) (H : Finset Node) (v : Node) : ℚ :=
  (aggOf g fs H v).sats - θ * (aggOf g fs H v).size

/-! ### Saturation and parent-closedness -/

/-- No node outside `T` qualifies relative to `T`. -/
def Saturated (g : Graph) (fs : Node → fee_sz) (θ : ℚ) (T : Finset Node) : Prop :=
  ∀ v ∈ keys g, v ∉ T → surOf g fs θ T v < 0

/-- The accepted set contains the parents of each of its members. -/
def PC (g : Graph) (T : Finset Node) : Prop :=
  ∀ v ∈ T, ∀ p ∈ parentsOf g v, p ∈ T

/-- Remaining work potential: queue length plus, for each not-yet-accepted
graph entry, one pop plus its parent pushes. -/
def potential (g : Graph) (H : Finset Node) : ℕ :=
  ((g.filter (fun e => decide (e.1 ∉ H))).map (fun e => e.2.length + 1)).sum

/-! ### Graph congruence: two enumerations of the same dict -/

/-- Two graphs with the same underlying mapping (same keys, same parent list
per key), possibly in different enumeration orders. -/
def SameGraph (g1 g2 : Graph) : Prop := ∀ v, lookupG g1 v = lookupG g2 v

/-! ### Specification of one pass -/

/-- Table invariant: entries exist only for keys and always carry positive
sizes. -/
def TblGood (g : Graph) (fs : Node → fee_sz) (tbl : Tbl) : Prop :=
  ∀ v a, tbl v = some a → v ∈ keys g ∧ 0 < a.size

instance instDecEqExcept {ε α : Type} [DecidableEq ε] [DecidableEq α] :
    DecidableEq (Except ε α) := fun x y =>
  match x, y with
  | .ok a, .ok b =>
    if h : a = b then .isTrue (by rw [h])
    else .isFalse (by intro hc; injection hc; exact h (by assumption))
  | .ok _, .error _ => .isFalse (by intro hc; exact Except.noConfusion hc)
  | .error _, .ok _ => .isFalse (by intro hc; exact Except.noConfusion hc)
  | .error e, .error f =>
    if h : e = f then .isTrue (by rw [h])
    else .isFalse (by intro hc; injection hc; exact h (by assumption))

/-- Lookup of a rejected transaction's aggregate in `result_lt`. -/
def lookupLt (lt : List (Node × fee_sz)) (p : Node) : fee_sz :=
  ((lt.find? (fun e => e.1 == p)).map (·.2)).getD 0

/-! ### Concrete inputs from the repository's test fixtures -/

/-- Test case "Simplest possible graph, a single tx". -/
def gSingle : Graph := [("a", [])]

def fsSingle : Node → fee_sz := fun v => if v = "a" then ⟨400, 100⟩ else ⟨0, 0⟩

/-- Like `fsSingle` but with a negative (hence invalid) size. -/
def fsSingleNeg : Node → fee_sz := fun v => if v = "a" then ⟨400, -100⟩ else ⟨0, 0⟩

/-- Test case "child pays for parent". -/
def gCP : Graph := [("a", []), ("b", ["a"])]

def fsCP : Node → fee_sz := fun v =>
  if v = "a" then ⟨100, 300⟩ else if v = "b" then ⟨700, 100⟩ else ⟨0, 0⟩

/-- Test case "multiple passes may be needed": `b` and `c` are children of
`a`. -/
def gMulti : Graph := [("a", []), ("b", ["a"]), ("c", ["a"])]

/-- The same graph with `b` and `c` enumerated in the opposite order. -/
def gMultiRev : Graph := [("a", []), ("c", ["a"]), ("b", ["a"])]

def fsMulti : Node → fee_sz := fun v =>
  if v = "a" then ⟨100, 500⟩ else if v = "b" then ⟨800, 500⟩
  else if v = "c" then ⟨1000, 500⟩ else ⟨0, 0⟩

/-- Test case "example D": `d` has parents `a`, `b`, `c`, while `b` and `c`
are themselves children of `a`. -/
def gDiamond : Graph := [("a", []), ("b", ["a"]), ("c", ["a"]), ("d", ["a", "b", "c"])]

def fsDiamond : Node → fee_sz := fun v =>
  if v = "a" then ⟨100, 500⟩ else if v = "b" then ⟨800, 500⟩
  else if v = "c" then ⟨1000, 500⟩ else if v = "d" then ⟨100, 1000⟩ else ⟨0, 0⟩

/-- A graph referencing a parent that is not a key. -/
def gMissing : Graph := [("b", ["zz"])]

@[simp] theorem fee_sz.add_sats (a b : fee_sz) : (a + b).sats = a.sats + b.sats := rfl

@[simp] theorem fee_sz.add_size (a b : fee_sz) : (a + b).size = a.size + b.size := rfl

theorem fee_sz.mk_eq (a : fee_sz) : fee_sz.mk a.sats a.size = a := rfl

@[simp] theorem fee_sz.zero_sats : (0 : fee_sz).sats = 0 := rfl

@[simp] theorem fee_sz.zero_size : (0 : fee_sz).size = 0 := rfl

theorem fee_sz.sum_sats (l : List fee_sz) : l.sum.sats = (l.map fee_sz.sats).sum := by
  induction l with
  | nil => rfl
  | cons a l ih => simp [List.sum_cons, ih]

theorem fee_sz.sum_size (l : List fee_sz) : l.sum.size = (l.map fee_sz.size).sum := by
  induction l with
  | nil => rfl
  | cons a l ih => simp [List.sum_cons, ih]

theorem sumParentsQ_eq_sum (t : Node → fee_sz) (H : Finset Node) :
    ∀ (ps : List Node) (acc : fee_sz),
      sumParentsQ t H ps acc = acc + ((ps.filter (fun p => decide (p ∉ H))).map t).sum := by
  intro ps
  induction ps with
  | nil => intro acc; simp [sumParentsQ]
  | cons p ps ih =>
    intro acc
    by_cases hp : p ∈ H <;> simp [sumParentsQ, hp, ih, List.filter_cons, add_assoc]

theorem sumParentsQ_congr {t t' : Node → fee_sz} {H : Finset Node} {ps : List Node}
    (h : ∀ p ∈ ps, p ∉ H → t p = t' p) (acc : fee_sz) :
    sumParentsQ t H ps acc = sumParentsQ t' H ps acc := by
  induction ps generalizing acc with
  | nil => rfl
  | cons p ps ih =>
    by_cases hp : p ∈ H
    · simp only [sumParentsQ, if_pos hp]
      exact ih (fun q hq hqH => h q (List.mem_cons_of_mem _ hq) hqH) acc
    · simp only [sumParentsQ, if_neg hp]
      rw [h p (List.mem_cons_self _ _) hp]
      exact ih (fun q hq hqH => h q (List.mem_cons_of_mem _ hq) hqH) _

theorem aggAcc_stable (fs : Node → fee_sz) (H : Finset Node) :
    ∀ (l : Graph) (t : Node → fee_sz) (v : Node), v ∉ keys l → aggAcc fs H l t v = t v := by
  intro l
  induction l with
  | nil => intro t v _; rfl
  | cons e rest ih =>
    intro t v hv
    obtain ⟨w, ps⟩ := e
    have hvw : v ≠ w := fun h => hv (by simp [keys, h])
    have hvrest : v ∉ keys rest := fun h => hv (by simp [keys] at h ⊢; right; exact h)
    simp only [aggAcc]
    rw [ih _ v hvrest]
    simp [updateF, hvw]

/-! ### Facts about topological sortedness -/

theorem topoOK_keys_not_seen :
    ∀ (l : Graph) (seen : List Node), topoOK seen l = true → ∀ k ∈ keys l, k ∉ seen := by
  intro l
  induction l with
  | nil => intro seen _ k hk; simp [keys] at hk
  | cons e rest ih =>
    intro seen htopo k hk
    obtain ⟨v, ps⟩ := e
    simp only [topoOK, Bool.and_eq_true, Bool.not_eq_true'] at htopo
    obtain ⟨⟨hnv, _⟩, hrest⟩ := htopo
    simp only [keys, List.map_cons, List.mem_cons] at hk
    rcases hk with rfl | hk
    · intro hmem
      have : seen.contains k = true := List.elem_iff.mpr hmem
      rw [this] at hnv
      exact absurd hnv (by simp)
    · intro hmem
      exact (ih _ hrest k hk) (by simp [hmem])

theorem topoOK_nodup_keys :
    ∀ (l : Graph) (seen : List Node), topoOK seen l = true → (keys l).Nodup := by
  intro l
  induction l with
  | nil => intro seen _; simp [keys]
  | cons e rest ih =>
    intro seen htopo
    obtain ⟨v, ps⟩ := e
    simp only [topoOK, Bool.and_eq_true] at htopo
    obtain ⟨_, hrest⟩ := htopo
    refine List.Nodup.cons ?_ (ih _ hrest)
    intro hmem
    exact topoOK_keys_not_seen rest (v :: seen) hrest v hmem (by simp)

/-- Parents of an entry of the suffix are among `seen` or the earlier keys. -/
theorem topoOK_parents_pre :
    ∀ (pre rest : Graph) (seen : List Node) (v : Node) (ps : List Node),
      topoOK seen (pre ++ (v, ps) :: rest) = true →
      ∀ p ∈ ps, p ∈ seen ∨ p ∈ keys pre := by
  intro pre
  induction pre with
  | nil =>
    intro rest seen v ps htopo p hp
    simp only [List.nil_append, topoOK, Bool.and_eq_true] at htopo
    obtain ⟨⟨_, hps⟩, _⟩ := htopo
    left
    have := List.all_eq_true.mp hps p hp
    exact List.elem_iff.mp (by simpa using this)
  | cons e pre ih =>
    intro rest seen v ps htopo p hp
    obtain ⟨w, qs⟩ := e
    simp only [List.cons_append, topoOK, Bool.and_eq_true] at htopo
    obtain ⟨_, hrest⟩ := htopo
    rcases ih rest (w :: seen) v ps hrest p hp with hseen | hpre
    · rcases List.mem_cons.mp hseen with rfl | hseen
      · right; simp [keys]
      · left; exact hseen
    · right; simp only [keys, List.map_cons, List.mem_cons]; right; exact hpre

/-- Strong induction along the DAG: to prove a property of every key it
suffices to propagate it from parents to children. -/
theorem key_induction (g : Graph) (P : Node → Prop)
    (step : ∀ v ps, (v, ps) ∈ g → (∀ p ∈ ps, P p) → P v) (htopo : topoOK [] g = true) :
    ∀ v ∈ keys g, P v := by
  suffices h : ∀ (l : Graph) (seen : List Node), (∀ e ∈ l, e ∈ g) → topoOK seen l = true →
      (∀ w ∈ seen, P w) → ∀ v ∈ keys l, P v by
    exact h g [] (fun e he => he) htopo (by simp)
  intro l
  induction l with
  | nil => intro seen _ _ _ v hv; simp [keys] at hv
  | cons e rest ih =>
    intro seen hsub htopo hseen v hv
    obtain ⟨w, ps⟩ := e
    simp only [topoOK, Bool.and_eq_true] at htopo
    obtain ⟨⟨_, hps⟩, hrest⟩ := htopo
    have hPw : P w := by
      refine step w ps (hsub _ (List.mem_cons_self _ _)) ?_
      intro p hp
      have := List.all_eq_true.mp hps p hp
      exact hseen p (List.elem_iff.mp (by simpa using this))
    simp only [keys, List.map_cons, List.mem_cons] at hv
    rcases hv with rfl | hv
    · exact hPw
    · refine ih (w :: seen) (fun e he => hsub _ (List.mem_cons_of_mem _ he)) hrest ?_ v hv
      intro u hu
      rcases List.mem_cons.mp hu with rfl | hu
      · exact hPw
      · exact hseen u hu

theorem aggAcc_eq_aux (fs : Node → fee_sz) (H : Finset Node) :
    ∀ (l : Graph) (seen : List Node) (t : Node → fee_sz) (v : Node) (ps : List Node),
      topoOK seen l = true → (v, ps) ∈ l →
      aggAcc fs H l t v = sumParentsQ (aggAcc fs H l t) H ps (fs v) := by
  intro l
  induction l with
  | nil => intro seen t v ps _ hmem; simp at hmem
  | cons e rest ih =>
    intro seen t v ps htopo hmem
    obtain ⟨w, qs⟩ := e
    simp only [topoOK, Bool.and_eq_true] at htopo
    obtain ⟨⟨hnw, hqs⟩, hrest⟩ := htopo
    rcases List.mem_cons.mp hmem with heq | hmem
    · obtain ⟨rfl, rfl⟩ := Prod.mk.inj heq
      show aggAcc fs H rest (updateF t v (sumParentsQ t H ps (fs v))) v = _
      have hvrest : v ∉ keys rest := fun h =>
        topoOK_keys_not_seen rest (v :: seen) hrest v h (by simp)
      rw [aggAcc_stable fs H rest _ v hvrest]
      have hval : updateF t v (sumParentsQ t H ps (fs v)) v = sumParentsQ t H ps (fs v) := by
        simp [updateF]
      rw [hval]
      refine sumParentsQ_congr ?_ (fs v)
      intro p hp _
      have hpseen : p ∈ seen := by
        have := List.all_eq_true.mp hqs p hp
        exact List.elem_iff.mp (by simpa using this)
      have hprest : p ∉ keys rest := fun h =>
        topoOK_keys_not_seen rest (v :: seen) hrest p h (by simp [hpseen])
      have hpv : p ≠ v := fun h => (by
        rw [h] at hpseen
        have : seen.contains v = true := List.elem_iff.mpr hpseen
        rw [this] at hnw
        exact absurd hnw (by simp))
      show t p = aggAcc fs H rest (updateF t v (sumParentsQ t H ps (fs v))) p
      rw [aggAcc_stable fs H rest _ p hprest]
      simp [updateF, hpv]
    · exact ih (w :: seen) _ v ps hrest hmem

/-- The recursion of lines 162-167, for the canonical aggregate: a node's
aggregate is its own fee/size plus the aggregates of its parents outside the
accepted set. -/
theorem aggOf_rec (g : Graph) (fs : Node → fee_sz) (H : Finset Node)
    (htopo : topoOK [] g = true) {v : Node} {ps : List Node} (hmem : (v, ps) ∈ g) :
    aggOf g fs H v = fs v + ((ps.filter (fun p => decide (p ∉ H))).map (aggOf g fs H)).sum := by
  have := aggAcc_eq_aux fs H g [] fs v ps htopo hmem
  rw [aggOf, this, sumParentsQ_eq_sum]

/-! ### Dict lookup facts -/

theorem lookupG_eq_some {g : Graph} {v : Node} {ps : List Node}
    (h : lookupG g v = some ps) : (v, ps) ∈ g := by
  unfold lookupG at h
  obtain ⟨e, he, heq⟩ := Option.map_eq_some'.mp h
  have hkey : e.1 = v := by simpa using List.find?_some he
  have hmem := List.mem_of_find?_eq_some he
  have : e = (v, ps) := by
    obtain ⟨e1, e2⟩ := e
    simp only at hkey heq
    rw [hkey, heq]
  rwa [this] at hmem

theorem lookupG_isSome {g : Graph} {v : Node} :
    (lookupG g v).isSome = true ↔ v ∈ keys g := by
  unfold lookupG keys
  rw [Option.isSome_map']
  rw [List.find?_isSome]
  constructor
  · rintro ⟨e, he, heq⟩
    exact List.mem_map.mpr ⟨e, he, by simpa using heq⟩
  · rintro hv
    obtain ⟨e, he, heq⟩ := List.mem_map.mp hv
    exact ⟨e, he, by simpa using heq⟩

theorem nodup_keys_inj {g : Graph} (hnd : (keys g).Nodup) {e1 e2 : Node × List Node}
    (h1 : e1 ∈ g) (h2 : e2 ∈ g) (hk : e1.1 = e2.1) : e1 = e2 :=
  List.inj_on_of_nodup_map hnd h1 h2 hk

theorem lookupG_of_mem {g : Graph} (hnd : (keys g).Nodup) {v : Node} {ps : List Node}
    (hmem : (v, ps) ∈ g) : lookupG g v = some ps := by
  have hsome : (lookupG g v).isSome = true :=
    lookupG_isSome.mpr (List.mem_map.mpr ⟨(v, ps), hmem, rfl⟩)
  obtain ⟨qs, hqs⟩ := Option.isSome_iff_exists.mp hsome
  have : (v, qs) ∈ g := lookupG_eq_some hqs
  have := nodup_keys_inj hnd this hmem rfl
  rw [hqs]
  rw [Prod.mk.injEq] at this
  rw [this.2]

theorem parentsOf_of_mem {g : Graph} (hnd : (keys g).Nodup) {v : Node} {ps : List Node}
    (hmem : (v, ps) ∈ g) : parentsOf g v = ps := by
  rw [parentsOf, lookupG_of_mem hnd hmem, Option.getD_some]

theorem mem_keys_iff {g : Graph} {v : Node} : v ∈ keys g ↔ ∃ ps, (v, ps) ∈ g := by
  constructor
  · intro hv
    obtain ⟨e, he, heq⟩ := List.mem_map.mp hv
    exact ⟨e.2, by rwa [show (v, e.2) = e from by rw [← heq]]⟩
  · rintro ⟨ps, hmem⟩
    exact List.mem_map.mpr ⟨(v, ps), hmem, rfl⟩

theorem Anc.of_parent {g : Graph} {p v : Node} (h : p ∈ parentsOf g v) : Anc g p v :=
  Relation.TransGen.single h

theorem Anc.trans_parent {g : Graph} {a b v : Node} (h1 : Anc g a b)
    (h2 : b ∈ parentsOf g v) : Anc g a v :=
  Relation.TransGen.tail h1 h2

/-- Every parent of a key is an earlier key. -/
theorem parent_mem_pre {g : Graph} (htopo : topoOK [] g = true) :
    ∀ pre v ps rest, g = pre ++ (v, ps) :: rest → ∀ p ∈ ps, p ∈ keys pre := by
  intro pre v ps rest hg p hp
  rw [hg] at htopo
  rcases topoOK_parents_pre pre rest [] v ps htopo p hp with h | h
  · simp at h
  · exact h

/-- Every strict ancestor of a key is an earlier key. -/
theorem anc_mem_pre {g : Graph} (htopo : topoOK [] g = true) :
    ∀ a v, Anc g a v → ∀ pre ps rest, g = pre ++ (v, ps) :: rest → a ∈ keys pre := by
  have hnd : (keys g).Nodup := topoOK_nodup_keys g [] htopo
  intro a v h
  induction h with
  | single h =>
    rename_i b
    intro pre ps rest hg
    have hmem : (b, ps) ∈ g := by rw [hg]; simp
    rw [parentsOf_of_mem hnd hmem] at h
    exact parent_mem_pre htopo pre b ps rest hg a h
  | tail hab hbc ih =>
    intro pre ps rest hg
    rename_i b c
    have hmem : (c, ps) ∈ g := by rw [hg]; simp
    rw [parentsOf_of_mem hnd hmem] at hbc
    have hbpre : b ∈ keys pre := parent_mem_pre htopo pre c ps rest hg b hbc
    obtain ⟨e, he, heq⟩ := List.mem_map.mp hbpre
    obtain ⟨b2, psb⟩ := e
    simp only at heq
    subst heq
    obtain ⟨pre1, rest1, hpre⟩ := List.append_of_mem he
    have hg2 : g = pre1 ++ (b2, psb) :: (rest1 ++ (c, ps) :: rest) := by
      rw [hg, hpre]; simp
    have := ih pre1 psb (rest1 ++ (c, ps) :: rest) hg2
    rw [hpre]
    simp only [keys, List.map_append, List.mem_append]
    left
    exact this

theorem anc_mem_keys {g : Graph} (htopo : topoOK [] g = true) {a v : Node}
    (h : Anc g a v) (hv : v ∈ keys g) : a ∈ keys g := by
  obtain ⟨ps, hmem⟩ := mem_keys_iff.mp hv
  obtain ⟨pre, rest, hg⟩ := List.append_of_mem hmem
  have := anc_mem_pre htopo a v h pre ps rest hg
  rw [hg]
  simp only [keys, List.map_append, List.mem_append]
  left
  exact this

theorem sum_map_sub_mul (θ : ℚ) (A B : Node → ℚ) :
    ∀ l : List Node, ((l.map (fun p => A p - θ * B p)).sum =
      (l.map A).sum - θ * (l.map B).sum) := by
  intro l
  induction l with
  | nil => simp
  | cons p l ih => simp [ih]; ring

theorem surOf_rec (g : Graph) (fs : Node → fee_sz) (θ : ℚ) (H : Finset Node)
    (htopo : topoOK [] g = true) {v : Node} {ps : List Node} (hmem : (v, ps) ∈ g) :
    surOf g fs θ H v = ((fs v).sats - θ * (fs v).size) +
      ((ps.filter (fun p => decide (p ∉ H))).map (surOf g fs θ H)).sum := by
  unfold surOf
  rw [aggOf_rec g fs H htopo hmem]
  rw [sum_map_sub_mul θ (fun p => (aggOf g fs H p).sats) (fun p => (aggOf g fs H p).size)]
  simp only [fee_sz.add_sats, fee_sz.add_size, fee_sz.sum_sats, fee_sz.sum_size,
    List.map_map, Function.comp_def]
  ring

theorem aggOf_size_pos (g : Graph) (fs : Node → fee_sz) (H : Finset Node)
    (htopo : topoOK [] g = true) (hpos : ∀ e ∈ g, 0 < (fs e.1).size) :
    ∀ v ∈ keys g, 0 < (aggOf g fs H v).size := by
  refine key_induction g _ ?_ htopo
  intro v ps hmem ih
  rw [aggOf_rec g fs H htopo hmem]
  simp only [fee_sz.add_size, fee_sz.sum_size, List.map_map]
  have hown : 0 < (fs v).size := hpos (v, ps) hmem
  have hsum : 0 ≤ ((ps.filter (fun p => decide (p ∉ H))).map
      (fee_sz.size ∘ aggOf g fs H)).sum := by
    refine List.sum_nonneg ?_
    intro x hx
    obtain ⟨p, hp, rfl⟩ := List.mem_map.mp hx
    exact le_of_lt (ih p (List.mem_of_mem_filter hp))
  linarith

theorem feerate_lt_iff {a : fee_sz} (hpos : 0 < a.size) (θ : ℚ) :
    a.feerate < θ ↔ a.sats - θ * a.size < 0 := by
  rw [fee_sz.feerate, div_lt_iff hpos]
  constructor <;> intro h <;> linarith

theorem feerate_ge_iff {a : fee_sz} (hpos : 0 < a.size) (θ : ℚ) :
    θ ≤ a.feerate ↔ 0 ≤ a.sats - θ * a.size := by
  rw [fee_sz.feerate, le_div_iff hpos]
  constructor <;> intro h <;> linarith

theorem PC.anc_mem {g : Graph} {T : Finset Node} (hpc : PC g T) {a v : Node}
    (h : Anc g a v) (hv : v ∈ T) : a ∈ T := by
  induction h with
  | single h => exact hpc _ hv _ h
  | tail hab hbc ih =>
    rename_i b c
    exact ih (hpc _ hv _ hbc)

theorem sum_filter_mono (f1 f2 : Node → ℚ) (H T : Finset Node) (hsub : H ⊆ T) :
    ∀ ps : List Node, (∀ p ∈ ps, p ∉ T → f1 p ≤ f2 p) →
      (∀ p ∈ ps, p ∈ T → p ∉ H → f1 p ≤ 0) →
      ((ps.filter (fun p => decide (p ∉ H))).map f1).sum ≤
        ((ps.filter (fun p => decide (p ∉ T))).map f2).sum := by
  intro ps
  induction ps with
  | nil => intro _ _; simp
  | cons p ps ih =>
    intro h1 h2
    have ih2 := ih (fun q hq => h1 q (List.mem_cons_of_mem _ hq))
      (fun q hq => h2 q (List.mem_cons_of_mem _ hq))
    by_cases hpT : p ∈ T
    · have hpH2 : (p ∈ H) ∨ (p ∉ H) := em _
      simp only [List.filter_cons]
      rcases hpH2 with hpH | hpH
      · simp only [decide_eq_true_eq]
        rw [if_neg (by simp [hpH]), if_neg (by simp [hpT])]
        exact ih2
      · simp only [decide_eq_true_eq]
        rw [if_pos (by simp [hpH]), if_neg (by simp [hpT])]
        simp only [List.map_cons, List.sum_cons]
        have := h2 p (List.mem_cons_self _ _) hpT hpH
        linarith
    · have hpH : p ∉ H := fun h => hpT (hsub h)
      simp only [List.filter_cons, decide_eq_true_eq]
      rw [if_pos (by simp [hpH]), if_pos (by simp [hpT])]
      simp only [List.map_cons, List.sum_cons]
      have := h1 p (List.mem_cons_self _ _) hpT
      linarith

/-- Monotonicity under enlarging the accepted set: if every strict ancestor of
`v` that moved into `T` had nonpositive surplus at `H`, then `v`'s surplus can
only grow from `H` to `T`. -/
theorem sur_mono (g : Graph) (fs : Node → fee_sz) (θ : ℚ) (H T : Finset Node)
    (hsub : H ⊆ T) (htopo : topoOK [] g = true) :
    ∀ v ∈ keys g,
      (∀ a, Anc g a v → a ∈ T → a ∉ H → surOf g fs θ H a ≤ 0) → v ∉ T →
      surOf g fs θ H v ≤ surOf g fs θ T v := by
  have hnd : (keys g).Nodup := topoOK_nodup_keys g [] htopo
  refine key_induction g
    (fun v => (∀ a, Anc g a v → a ∈ T → a ∉ H → surOf g fs θ H a ≤ 0) → v ∉ T →
      surOf g fs θ H v ≤ surOf g fs θ T v) ?_ htopo
  intro v ps hmem ih hanc hvT
  rw [surOf_rec g fs θ H htopo hmem, surOf_rec g fs θ T htopo hmem]
  have hps : parentsOf g v = ps := parentsOf_of_mem hnd hmem
  have hmono : ((ps.filter (fun p => decide (p ∉ H))).map (surOf g fs θ H)).sum ≤
      ((ps.filter (fun p => decide (p ∉ T))).map (surOf g fs θ T)).sum := by
    refine sum_filter_mono _ _ H T hsub ps ?_ ?_
    · intro p hp hpT
      refine ih p hp ?_ hpT
      intro a ha haT haH
      exact hanc a (Anc.trans_parent ha (hps ▸ hp)) haT haH
    · intro p hp hpT hpH
      exact hanc p (Anc.of_parent (hps ▸ hp)) hpT hpH
  linarith

/-- Key lemma: a locally minimal qualifier at `H` belongs to every saturated
parent-closed superset of `H`. -/
theorem locmin_mem_sat (g : Graph) (fs : Node → fee_sz) (θ : ℚ)
    (htopo : topoOK [] g = true) (hpos : ∀ e ∈ g, 0 < (fs e.1).size)
    (T : Finset Node) (hTsat : Saturated g fs θ T)
    (H : Finset Node) (hsub : H ⊆ T) (v : Node) (hv : v ∈ keys g) (hvH : v ∉ H)
    (hq : 0 ≤ surOf g fs θ H v)
    (hmin : ∀ a, Anc g a v → a ∉ H → surOf g fs θ H a < 0) :
    v ∈ T := by
  by_contra hvT
  have hmono := sur_mono g fs θ H T hsub htopo v hv
    (fun a ha haT haH => le_of_lt (hmin a ha haH)) hvT
  have hsat := hTsat v hv hvT
  linarith

/-! ### Facts about the BFS closure -/

theorem parent_mem_keys {g : Graph} (htopo : topoOK [] g = true) {v : Node} {ps : List Node}
    (hmem : (v, ps) ∈ g) : ∀ p ∈ ps, p ∈ keys g := by
  intro p hp
  obtain ⟨pre, rest, hg⟩ := List.append_of_mem hmem
  have := parent_mem_pre htopo pre v ps rest hg p hp
  rw [hg]
  simp only [keys, List.map_append, List.mem_append]
  left
  exact this

theorem closure_mono (g : Graph) :
    ∀ (fuel : ℕ) (todo : List Node) (H H1 : Finset Node),
      closure g fuel todo H = .ok H1 → H ⊆ H1 := by
  intro fuel
  induction fuel with
  | zero =>
    intro todo H H1 h
    cases todo with
    | nil => simp only [closure] at h; injection h with h; rw [← h]
    | cons t todo => simp [closure] at h
  | succ fuel ih =>
    intro todo H H1 h
    cases todo with
    | nil => simp only [closure] at h; injection h with h; rw [← h]
    | cons t todo =>
      simp only [closure] at h
      by_cases ht : t ∈ H
      · rw [if_pos ht] at h
        exact ih todo H H1 h
      · rw [if_neg ht] at h
        cases hlook : lookupG g t with
        | none => rw [hlook] at h; simp at h
        | some ps =>
          rw [hlook] at h
          exact fun x hx => ih (todo ++ ps) _ H1 h (Finset.mem_insert_of_mem hx)

theorem closure_seed_mem (g : Graph) (fuel : ℕ) (t : Node) (todo : List Node)
    (H H1 : Finset Node) (h : closure g fuel (t :: todo) H = .ok H1) : t ∈ H1 := by
  cases fuel with
  | zero => simp [closure] at h
  | succ fuel =>
    simp only [closure] at h
    by_cases ht : t ∈ H
    · rw [if_pos ht] at h
      exact closure_mono g fuel todo H H1 h ht
    · rw [if_neg ht] at h
      cases hlook : lookupG g t with
      | none => rw [hlook] at h; simp at h
      | some ps =>
        rw [hlook] at h
        exact closure_mono g fuel _ _ H1 h (Finset.mem_insert_self t H)

/-- Everything the BFS adds lies in any set `P` that contains the current
accepted set and the work queue and is closed under parents. -/
theorem closure_subset_closed (g : Graph) (P : Set Node)
    (hcl : ∀ t, t ∈ P → ∀ ps, lookupG g t = some ps → ∀ p ∈ ps, p ∈ P) :
    ∀ (fuel : ℕ) (todo : List Node) (H H1 : Finset Node),
      (∀ t ∈ todo, t ∈ P) → (∀ w ∈ H, w ∈ P) →
      closure g fuel todo H = .ok H1 → ∀ w ∈ H1, w ∈ P := by
  intro fuel
  induction fuel with
  | zero =>
    intro todo H H1 htodo hH h
    cases todo with
    | nil => simp only [closure] at h; injection h with h; rw [← h]; exact hH
    | cons t todo => simp [closure] at h
  | succ fuel ih =>
    intro todo H H1 htodo hH h
    cases todo with
    | nil => simp only [closure] at h; injection h with h; rw [← h]; exact hH
    | cons t todo =>
      simp only [closure] at h
      by_cases ht : t ∈ H
      · rw [if_pos ht] at h
        exact ih todo H H1 (fun s hs => htodo s (List.mem_cons_of_mem _ hs)) hH h
      · rw [if_neg ht] at h
        cases hlook : lookupG g t with
        | none => rw [hlook] at h; simp at h
        | some ps =>
          rw [hlook] at h
          have htP : t ∈ P := htodo t (List.mem_cons_self _ _)
          refine ih (todo ++ ps) _ H1 ?_ ?_ h
          · intro s hs
            rcases List.mem_append.mp hs with hs | hs
            · exact htodo s (List.mem_cons_of_mem _ hs)
            · exact hcl t htP ps hlook s hs
          · intro w hw
            rcases Finset.mem_insert.mp hw with rfl | hw
            · exact htP
            · exact hH w hw

/-- The BFS result is parent-closed, given the parents of the incoming
accepted set are covered by the set or the queue. -/
theorem closure_pc (g : Graph) :
    ∀ (fuel : ℕ) (todo : List Node) (H H1 : Finset Node),
      (∀ w ∈ H, ∀ p ∈ parentsOf g w, p ∈ H ∨ p ∈ todo) →
      closure g fuel todo H = .ok H1 → PC g H1 := by
  intro fuel
  induction fuel with
  | zero =>
    intro todo H H1 hinv h
    cases todo with
    | nil =>
      simp only [closure] at h
      injection h with h
      rw [← h]
      intro w hw p hp
      rcases hinv w hw p hp with hx | hx
      · exact hx
      · simp at hx
    | cons t todo => simp [closure] at h
  | succ fuel ih =>
    intro todo H H1 hinv h
    cases todo with
    | nil =>
      simp only [closure] at h
      injection h with h
      rw [← h]
      intro w hw p hp
      rcases hinv w hw p hp with hx | hx
      · exact hx
      · simp at hx
    | cons t todo =>
      simp only [closure] at h
      by_cases ht : t ∈ H
      · rw [if_pos ht] at h
        refine ih todo H H1 ?_ h
        intro w hw p hp
        rcases hinv w hw p hp with hx | hx
        · exact Or.inl hx
        · rcases List.mem_cons.mp hx with rfl | hx
          · exact Or.inl ht
          · exact Or.inr hx
      · rw [if_neg ht] at h
        cases hlook : lookupG g t with
        | none => rw [hlook] at h; simp at h
        | some ps =>
          rw [hlook] at h
          refine ih (todo ++ ps) _ H1 ?_ h
          intro w hw p hp
          rcases Finset.mem_insert.mp hw with rfl | hw
          · right
            rw [parentsOf, hlook] at hp
            exact List.mem_append.mpr (Or.inr hp)
          · rcases hinv w hw p hp with hx | hx
            · exact Or.inl (Finset.mem_insert_of_mem hx)
            · rcases List.mem_cons.mp hx with rfl | hx
              · exact Or.inl (Finset.mem_insert_self _ _)
              · exact Or.inr (List.mem_append.mpr (Or.inl hx))

theorem potential_stable (H : Finset Node) (t : Node) :
    ∀ l : Graph, t ∉ keys l → potential l (insert t H) = potential l H := by
  intro l
  induction l with
  | nil => intro _; rfl
  | cons e rest ih =>
    intro hmem
    have het : e.1 ≠ t := fun h => hmem (by simp [keys, h])
    have hrest : t ∉ keys rest := fun h => hmem (by simp [keys] at h ⊢; right; exact h)
    have hiff : (e.1 ∉ insert t H) ↔ (e.1 ∉ H) := by
      simp [Finset.mem_insert, het]
    unfold potential
    simp only [List.filter_cons]
    by_cases he : e.1 ∈ H
    · rw [if_neg (by simpa using fun hc => (hiff.mp hc) he), if_neg (by simpa using he)]
      exact ih hrest
    · rw [if_pos (by simpa using hiff.mpr he), if_pos (by simpa using he)]
      simp only [List.map_cons, List.sum_cons]
      exact congrArg _ (ih hrest)

theorem potential_append (l1 l2 : Graph) (H : Finset Node) :
    potential (l1 ++ l2) H = potential l1 H + potential l2 H := by
  unfold potential
  simp [List.filter_append]

theorem potential_insert {g : Graph} (hnd : (keys g).Nodup) {t : Node} {ps : List Node}
    (hmem : (t, ps) ∈ g) :
    ∀ H : Finset Node, t ∉ H → potential g H = potential g (insert t H) + (ps.length + 1) := by
  intro H htnotH
  obtain ⟨pre, rest, hg⟩ := List.append_of_mem hmem
  subst hg
  have hkeys : keys (pre ++ (t, ps) :: rest) = keys pre ++ t :: keys rest := by
    simp [keys]
  rw [hkeys] at hnd
  obtain ⟨hnd1, hnd2, hdisj⟩ := List.nodup_append.mp hnd
  have htpre : t ∉ keys pre := fun h => hdisj h (List.mem_cons_self _ _)
  have htrest : t ∉ keys rest := (List.nodup_cons.mp hnd2).1
  rw [potential_append, potential_append]
  have hmid1 : potential ((t, ps) :: rest) H = (ps.length + 1) + potential rest H := by
    unfold potential
    simp only [List.filter_cons]
    rw [if_pos (by simpa using htnotH)]
    simp [List.map_cons, List.sum_cons]
  have hmid2 : potential ((t, ps) :: rest) (insert t H) = potential rest H := by
    unfold potential
    simp only [List.filter_cons]
    rw [if_neg (by simp)]
    have := potential_stable H t rest htrest
    unfold potential at this
    exact this
  rw [hmid1, hmid2, potential_stable H t pre htpre]
  ring

theorem potential_empty (g : Graph) :
    potential g ∅ = totalParentSlots g + g.length := by
  unfold potential totalParentSlots
  induction g with
  | nil => rfl
  | cons e rest ih =>
    simp only [List.filter_cons, List.map_cons, List.sum_cons]
    rw [if_pos (by simp)]
    simp only [List.map_cons, List.sum_cons, List.length_cons]
    omega

theorem potential_mono (H H1 : Finset Node) (hsub : H ⊆ H1) :
    ∀ g : Graph, potential g H1 ≤ potential g H := by
  intro g
  induction g with
  | nil => exact le_refl _
  | cons e rest ih =>
    unfold potential
    simp only [List.filter_cons]
    have ihp := ih
    unfold potential at ihp
    by_cases he1 : e.1 ∈ H1
    · rw [if_neg (by simp [he1])]
      by_cases he : e.1 ∈ H
      · rw [if_neg (by simp [he])]
        exact ihp
      · rw [if_pos (by simpa using he)]
        simp only [List.map_cons, List.sum_cons]
        omega
    · have he : e.1 ∉ H := fun h => he1 (hsub h)
      rw [if_pos (by simpa using he1), if_pos (by simpa using he)]
      simp only [List.map_cons, List.sum_cons]
      omega

/-- With the stated fuel, the BFS never runs out. -/
theorem closure_total (g : Graph) (htopo : topoOK [] g = true) :
    ∀ (fuel : ℕ) (todo : List Node) (H : Finset Node),
      todo.length + potential g H < fuel → (∀ t ∈ todo, t ∈ keys g) →
      ∃ H1, closure g fuel todo H = .ok H1 := by
  have hnd := topoOK_nodup_keys g [] htopo
  intro fuel
  induction fuel with
  | zero => intro todo H hlt _; omega
  | succ fuel ih =>
    intro todo H hlt htodo
    cases todo with
    | nil => exact ⟨H, rfl⟩
    | cons t todo =>
      simp only [closure]
      by_cases ht : t ∈ H
      · rw [if_pos ht]
        refine ih todo H ?_ (fun s hs => htodo s (List.mem_cons_of_mem _ hs))
        simp only [List.length_cons] at hlt
        omega
      · rw [if_neg ht]
        have htk : t ∈ keys g := htodo t (List.mem_cons_self _ _)
        obtain ⟨ps, hps⟩ := Option.isSome_iff_exists.mp (lookupG_isSome.mpr htk)
        rw [hps]
        have hmem : (t, ps) ∈ g := lookupG_eq_some hps
        have hpot := potential_insert hnd hmem H ht
        refine ih (todo ++ ps) (insert t H) ?_ ?_
        · simp only [List.length_append]
          simp only [List.length_cons] at hlt
          omega
        · intro s hs
          rcases List.mem_append.mp hs with hs | hs
          · exact htodo s (List.mem_cons_of_mem _ hs)
          · exact parent_mem_keys htopo hmem s hs

theorem SameGraph.parentsOf_eq {g1 g2 : Graph} (h : SameGraph g1 g2) (v : Node) :
    parentsOf g1 v = parentsOf g2 v := by
  unfold parentsOf
  rw [h v]

theorem SameGraph.keys_mem_iff {g1 g2 : Graph} (h : SameGraph g1 g2) (v : Node) :
    v ∈ keys g1 ↔ v ∈ keys g2 := by
  rw [← lookupG_isSome, ← lookupG_isSome, h v]

theorem SameGraph.anc_iff {g1 g2 : Graph} (h : SameGraph g1 g2) (a v : Node) :
    Anc g1 a v ↔ Anc g2 a v := by
  constructor
  · exact Relation.TransGen.mono (fun x y hxy => by rw [← h.parentsOf_eq]; exact hxy)
  · exact Relation.TransGen.mono (fun x y hxy => by rw [h.parentsOf_eq]; exact hxy)

theorem aggOf_congr {g1 g2 : Graph} (h : SameGraph g1 g2)
    (htopo1 : topoOK [] g1 = true) (htopo2 : topoOK [] g2 = true)
    (fs : Node → fee_sz) (H : Finset Node) :
    ∀ v ∈ keys g1, aggOf g1 fs H v = aggOf g2 fs H v := by
  have hnd1 := topoOK_nodup_keys g1 [] htopo1
  refine key_induction g1 _ ?_ htopo1
  intro v ps hmem ih
  have hl1 : lookupG g1 v = some ps := lookupG_of_mem hnd1 hmem
  have hl2 : lookupG g2 v = some ps := by rw [← h v]; exact hl1
  have hmem2 : (v, ps) ∈ g2 := lookupG_eq_some hl2
  rw [aggOf_rec g1 fs H htopo1 hmem, aggOf_rec g2 fs H htopo2 hmem2]
  congr 1
  refine congrArg _ ?_
  refine List.map_congr_left ?_
  intro p hp
  exact ih p (List.mem_of_mem_filter hp)

theorem surOf_congr {g1 g2 : Graph} (h : SameGraph g1 g2)
    (htopo1 : topoOK [] g1 = true) (htopo2 : topoOK [] g2 = true)
    (fs : Node → fee_sz) (θ : ℚ) (H : Finset Node) :
    ∀ v ∈ keys g1, surOf g1 fs θ H v = surOf g2 fs θ H v := by
  intro v hv
  unfold surOf
  rw [aggOf_congr h htopo1 htopo2 fs H v hv]

theorem sumParentsE_ok (tbl : Tbl) (H : Finset Node) (t : Node → fee_sz) :
    ∀ (ps : List Node) (acc : fee_sz), (∀ p ∈ ps, p ∉ H → tbl p = some (t p)) →
      sumParentsE tbl H ps acc = .ok (sumParentsQ t H ps acc) := by
  intro ps
  induction ps with
  | nil => intro acc _; rfl
  | cons p ps ih =>
    intro acc hps
    by_cases hp : p ∈ H
    · simp only [sumParentsE, sumParentsQ, if_pos hp]
      exact ih acc (fun q hq => hps q (List.mem_cons_of_mem _ hq))
    · simp only [sumParentsE, sumParentsQ, if_neg hp]
      rw [hps p (List.mem_cons_self _ _) hp]
      exact ih _ (fun q hq => hps q (List.mem_cons_of_mem _ hq))

theorem aggOf_spq (g : Graph) (fs : Node → fee_sz) (H : Finset Node)
    (htopo : topoOK [] g = true) {v : Node} {ps : List Node} (hmem : (v, ps) ∈ g) :
    aggOf g fs H v = sumParentsQ (aggOf g fs H) H ps (fs v) :=
  aggAcc_eq_aux fs H g [] fs v ps htopo hmem

theorem passRun_spec (g : Graph) (fs : Node → fee_sz) (θ : ℚ)
    (htopo : topoOK [] g = true) (hpos : ∀ e ∈ g, 0 < (fs e.1).size) :
    ∀ (rest pre : Graph) (tbl : Tbl) (H : Finset Node),
      g = pre ++ rest →
      (∀ w ∈ H, w ∈ keys g) →
      PC g H →
      TblGood g fs tbl →
      (∀ v ∈ keys pre, v ∉ H → tbl v = some (aggOf g fs H v)) →
      (∀ v ∈ keys pre, v ∉ H → surOf g fs θ H v < 0) →
      ∃ tbl1, TblGood g fs tbl1 ∧
        ((passRun g fs θ (clFuelOf g) rest tbl H = .ok (tbl1, H, false) ∧
          (∀ v ∈ keys g, v ∉ H → tbl1 v = some (aggOf g fs H v)) ∧
          (∀ v ∈ keys rest, v ∉ H → surOf g fs θ H v < 0)) ∨
         (∃ v H1, passRun g fs θ (clFuelOf g) rest tbl H = .ok (tbl1, H1, true) ∧
          v ∈ keys rest ∧ v ∉ H ∧ 0 ≤ surOf g fs θ H v ∧
          (∀ a, Anc g a v → a ∉ H → surOf g fs θ H a < 0) ∧
          H ⊆ H1 ∧ v ∈ H1 ∧ (∀ w ∈ H1, w ∈ keys g) ∧ PC g H1 ∧
          (∀ w ∈ H1, w ∈ H ∨ w = v ∨ Anc g w v))) := by
  have hnd := topoOK_nodup_keys g [] htopo
  intro rest
  induction rest with
  | nil =>
    intro pre tbl H hg hHk hpc htg hcan hsur
    refine ⟨tbl, htg, Or.inl ⟨rfl, ?_, ?_⟩⟩
    · intro v hv hvH
      refine hcan v ?_ hvH
      rw [hg, List.append_nil] at hv
      exact hv
    · intro v hv
      simp [keys] at hv
  | cons e rest2 ih =>
    intro pre tbl H hg hHk hpc htg hcan hsur
    obtain ⟨txid, ps⟩ := e
    have hmem : (txid, ps) ∈ g := by rw [hg]; simp
    have htxk : txid ∈ keys g := List.mem_map.mpr ⟨(txid, ps), hmem, rfl⟩
    by_cases ht : txid ∈ H
    · -- skipped: extend the scanned prefix
      have hg2 : g = (pre ++ [(txid, ps)]) ++ rest2 := by rw [hg]; simp
      have hcan2 : ∀ v ∈ keys (pre ++ [(txid, ps)]), v ∉ H →
          tbl v = some (aggOf g fs H v) := by
        intro v hv hvH
        simp only [keys, List.map_append, List.mem_append] at hv
        rcases hv with hv | hv
        · exact hcan v hv hvH
        · simp at hv
          rw [hv] at hvH
          exact absurd ht hvH
      have hsur2 : ∀ v ∈ keys (pre ++ [(txid, ps)]), v ∉ H → surOf g fs θ H v < 0 := by
        intro v hv hvH
        simp only [keys, List.map_append, List.mem_append] at hv
        rcases hv with hv | hv
        · exact hsur v hv hvH
        · simp at hv
          rw [hv] at hvH
          exact absurd ht hvH
      obtain ⟨tbl1, htg1, hres⟩ := ih (pre ++ [(txid, ps)]) tbl H hg2 hHk hpc htg hcan2 hsur2
      refine ⟨tbl1, htg1, ?_⟩
      rcases hres with ⟨hrun, hfull, hrest⟩ | ⟨v, H1, hrun, hvk, hcond⟩
      · refine Or.inl ⟨?_, hfull, ?_⟩
        · simp only [passRun, if_pos ht]
          exact hrun
        · intro v hv hvH
          simp only [keys, List.map_cons, List.mem_cons] at hv
          rcases hv with rfl | hv
          · exact absurd ht hvH
          · exact hrest v hv hvH
      · refine Or.inr ⟨v, H1, ?_, ?_, hcond⟩
        · simp only [passRun, if_pos ht]
          exact hrun
        · simp only [keys, List.map_cons, List.mem_cons]
          right
          exact hvk
    · -- evaluated
      have hpspre : ∀ p ∈ ps, p ∈ keys pre := parent_mem_pre htopo pre txid ps rest2 hg
      have hsum : sumParentsE tbl H ps (fs txid) =
          .ok (sumParentsQ (aggOf g fs H) H ps (fs txid)) := by
        refine sumParentsE_ok tbl H (aggOf g fs H) ps (fs txid) ?_
        intro p hp hpH
        exact hcan p (hpspre p hp) hpH
      have hagg : sumParentsQ (aggOf g fs H) H ps (fs txid) = aggOf g fs H txid :=
        (aggOf_spq g fs H htopo hmem).symm
      have hszpos : 0 < (aggOf g fs H txid).size := aggOf_size_pos g fs H htopo hpos txid htxk
      have hsz : ¬ ((aggOf g fs H txid).size = 0) := by linarith
      by_cases hq : (aggOf g fs H txid).feerate < θ
      · -- below threshold: store and continue
        have hsurv : surOf g fs θ H txid < 0 := (feerate_lt_iff hszpos θ).mp hq
        have hg2 : g = (pre ++ [(txid, ps)]) ++ rest2 := by rw [hg]; simp
        have htg2 : TblGood g fs (tbl.set txid (aggOf g fs H txid)) := by
          intro v a hv
          unfold Tbl.set at hv
          by_cases hvt : v = txid
          · rw [if_pos hvt] at hv
            injection hv with hv
            rw [hvt, ← hv]
            exact ⟨htxk, hszpos⟩
          · rw [if_neg hvt] at hv
            exact htg v a hv
        have hcan2 : ∀ v ∈ keys (pre ++ [(txid, ps)]), v ∉ H →
            tbl.set txid (aggOf g fs H txid) v = some (aggOf g fs H v) := by
          intro v hv hvH
          unfold Tbl.set
          by_cases hvt : v = txid
          · rw [if_pos hvt, hvt]
          · rw [if_neg hvt]
            simp only [keys, List.map_append, List.mem_append] at hv
            rcases hv with hv | hv
            · exact hcan v hv hvH
            · simp at hv
              exact absurd hv hvt
        have hsur2 : ∀ v ∈ keys (pre ++ [(txid, ps)]), v ∉ H → surOf g fs θ H v < 0 := by
          intro v hv hvH
          simp only [keys, List.map_append, List.mem_append] at hv
          rcases hv with hv | hv
          · exact hsur v hv hvH
          · simp at hv
            rw [hv]
            exact hsurv
        obtain ⟨tbl1, htg1, hres⟩ :=
          ih (pre ++ [(txid, ps)]) (tbl.set txid (aggOf g fs H txid)) H hg2 hHk hpc htg2
            hcan2 hsur2
        refine ⟨tbl1, htg1, ?_⟩
        rcases hres with ⟨hrun, hfull, hrest⟩ | ⟨v, H1, hrun, hvk, hcond⟩
        · refine Or.inl ⟨?_, hfull, ?_⟩
          · simp only [passRun, if_neg ht, hsum, hagg, if_neg hsz, if_pos hq]
            exact hrun
          · intro v hv hvH
            simp only [keys, List.map_cons, List.mem_cons] at hv
            rcases hv with rfl | hv
            · exact hsurv
            · exact hrest v hv hvH
        · refine Or.inr ⟨v, H1, ?_, ?_, hcond⟩
          · simp only [passRun, if_neg ht, hsum, hagg, if_neg hsz, if_pos hq]
            exact hrun
          · simp only [keys, List.map_cons, List.mem_cons]
            right
            exact hvk
      · -- qualifies: accept the closure
        have hsurge : 0 ≤ surOf g fs θ H txid := by
          have := (feerate_ge_iff hszpos θ).mp (le_of_not_lt hq)
          exact this
        have hclose : ∃ H1, closure g (clFuelOf g) [txid] H = .ok H1 := by
          refine closure_total g htopo (clFuelOf g) [txid] H ?_ ?_
          · have hm := potential_mono ∅ H (Finset.empty_subset H) g
            rw [potential_empty g] at hm
            simp only [List.length_cons, List.length_nil, clFuelOf]
            omega
          · intro s hs
            simp only [List.mem_cons] at hs
            rcases hs with rfl | hs
            · exact htxk
            · simp at hs
        obtain ⟨H1, hH1⟩ := hclose
        have htg2 : TblGood g fs (tbl.set txid (aggOf g fs H txid)) := by
          intro v a hv
          unfold Tbl.set at hv
          by_cases hvt : v = txid
          · rw [if_pos hvt] at hv
            injection hv with hv
            rw [hvt, ← hv]
            exact ⟨htxk, hszpos⟩
          · rw [if_neg hvt] at hv
            exact htg v a hv
        refine ⟨tbl.set txid (aggOf g fs H txid), htg2, Or.inr ⟨txid, H1, ?_, ?_, ht, hsurge,
          ?_, ?_, ?_, ?_, ?_, ?_⟩⟩
        · simp only [passRun, if_neg ht, hsum, hagg, if_neg hsz, if_neg hq, hH1]
        · simp [keys]
        · -- locally minimal: every not-accepted strict ancestor failed earlier
          intro a ha haH
          have hapre : a ∈ keys pre := anc_mem_pre htopo a txid ha pre ps rest2 hg
          exact hsur a hapre haH
        · exact closure_mono g (clFuelOf g) [txid] H H1 hH1
        · exact closure_seed_mem g (clFuelOf g) txid [] H H1 hH1
        · -- stays inside the key set
          refine closure_subset_closed g (fun w => w ∈ keys g) ?_ (clFuelOf g) [txid] H H1
            ?_ hHk hH1
          · intro t htk ps2 hlk p hp
            exact parent_mem_keys htopo (lookupG_eq_some hlk) p hp
          · intro s hs
            simp only [List.mem_cons] at hs
            rcases hs with rfl | hs
            · exact htxk
            · simp at hs
        · -- parent-closed
          refine closure_pc g (clFuelOf g) [txid] H H1 ?_ hH1
          intro w hw p hp
          exact Or.inl (hpc w hw p hp)
        · -- everything new is the seed or one of its strict ancestors
          refine closure_subset_closed g
            (fun w => w ∈ H ∨ w = txid ∨ Anc g w txid) ?_ (clFuelOf g) [txid] H H1 ?_ ?_ hH1
          · intro t htP ps2 hlk p hp
            have hmem2 : (t, ps2) ∈ g := lookupG_eq_some hlk
            have hpar : p ∈ parentsOf g t := by
              rw [parentsOf_of_mem hnd hmem2]
              exact hp
            rcases htP with htP | rfl | htP
            · exact Or.inl (hpc t htP p hpar)
            · exact Or.inr (Or.inr (Anc.of_parent hpar))
            · exact Or.inr (Or.inr (Relation.TransGen.head hpar htP))
          · intro s hs
            simp only [List.mem_cons] at hs
            rcases hs with rfl | hs
            · exact Or.inr (Or.inl rfl)
            · simp at hs
          · exact fun w hw => Or.inl hw

/-! ### Specification of the fixed-point loop -/

theorem loop_spec (g : Graph) (fs : Node → fee_sz) (θ : ℚ)
    (htopo : topoOK [] g = true) (hpos : ∀ e ∈ g, 0 < (fs e.1).size) :
    ∀ (fuel : ℕ) (tbl : Tbl) (H : Finset Node),
      (∀ w ∈ H, w ∈ keys g) → PC g H → TblGood g fs tbl →
      ((keys g).toFinset \ H).card < fuel →
      ∃ tbl1 H1 n, loop g fs θ (clFuelOf g) fuel tbl H = .ok (tbl1, H1, n) ∧
        H ⊆ H1 ∧ (∀ w ∈ H1, w ∈ keys g) ∧ PC g H1 ∧
        n ≤ ((keys g).toFinset \ H).card + 1 ∧
        (∀ v ∈ keys g, v ∉ H1 → tbl1 v = some (aggOf g fs H1 v)) ∧
        Saturated g fs θ H1 ∧
        (∀ T : Finset Node, PC g T → Saturated g fs θ T → H ⊆ T → H1 ⊆ T) := by
  intro fuel
  induction fuel with
  | zero => intro tbl H _ _ _ hcard; omega
  | succ fuel ih =>
    intro tbl H hHk hpc htg hcard
    obtain ⟨tbl1, htg1, hres⟩ :=
      passRun_spec g fs θ htopo hpos g [] tbl H (by simp) hHk hpc htg
        (by intro v hv; simp [keys] at hv) (by intro v hv; simp [keys] at hv)
    rcases hres with ⟨hrun, hfull, hrest⟩ | ⟨v, Hp, hrun, hvk, hvH, hsurge, hmin, hHHp,
      hvHp, hHpk, hpcp, hHpchar⟩
    · -- final pass: no progress
      refine ⟨tbl1, H, 1, ?_, Finset.Subset.refl H, hHk, hpc, by omega, hfull, hrest, ?_⟩
      · simp only [loop, hrun]
        rfl
      · intro T _ _ hHT
        exact hHT
    · -- progress: one more node accepted, recurse
      have hvkeys : v ∈ keys g := hvk
      have hcard2 : (((keys g).toFinset \ Hp).card) < ((keys g).toFinset \ H).card := by
        refine Finset.card_lt_card ?_
        rw [Finset.ssubset_iff_of_subset]
        · exact ⟨v, by simp [List.mem_toFinset.mpr hvkeys, hvH], by simp [hvHp]⟩
        · intro x hx
          simp only [Finset.mem_sdiff] at hx ⊢
          exact ⟨hx.1, fun hc => hx.2 (hHHp hc)⟩
      obtain ⟨tbl2, H2, n, hrun2, hsub2, hH2k, hpc2, hn2, hcan2, hsat2, hleast2⟩ :=
        ih tbl1 Hp hHpk hpcp htg1 (by omega)
      refine ⟨tbl2, H2, n + 1, ?_, Finset.Subset.trans hHHp hsub2, hH2k, hpc2, by omega,
        hcan2, hsat2, ?_⟩
      · simp only [loop, hrun, hrun2]
        rfl
      · intro T hpcT hsatT hHT
        refine hleast2 T hpcT hsatT ?_
        intro w hw
        rcases hHpchar w hw with hwH | rfl | hwanc
        · exact hHT hwH
        · exact locmin_mem_sat g fs θ htopo hpos T hsatT H hHT w hvkeys hvH hsurge hmin
        · have hvT : v ∈ T :=
            locmin_mem_sat g fs θ htopo hpos T hsatT H hHT v hvkeys hvH hsurge hmin
          exact hpcT.anc_mem hwanc hvT

theorem resultLtE_spec (tbl : Tbl) (H : Finset Node) (f : Node → fee_sz) :
    ∀ l : Graph, (∀ v ∈ keys l, v ∉ H → tbl v = some (f v)) →
      resultLtE tbl H l =
        .ok ((l.filter (fun e => decide (e.1 ∉ H))).map (fun e => (e.1, f e.1))) := by
  intro l
  induction l with
  | nil => intro _; rfl
  | cons e rest ih =>
    intro hcan
    obtain ⟨v, ps⟩ := e
    by_cases hv : v ∈ H
    · simp only [resultLtE, if_pos hv, List.filter_cons]
      rw [if_neg (by simp [hv])]
      exact ih (fun w hw hwH => hcan w (by simp [keys] at hw ⊢; right; exact hw) hwH)
    · simp only [resultLtE, if_neg hv, List.filter_cons]
      rw [hcan v (by simp [keys]) hv]
      rw [ih (fun w hw hwH => hcan w (by simp [keys] at hw ⊢; right; exact hw) hwH)]
      rw [if_pos (by simp [hv])]
      rfl

/-- Master specification of `partition_by_feerate` on valid inputs: the
accepted set is the least saturated parent-closed set; the rejected list
carries the canonical aggregates relative to the final accepted set. -/
theorem partition_spec (g : Graph) (fs : Node → fee_sz) (θ : ℚ)
    (htopo : topoOK [] g = true) (hpos : ∀ e ∈ g, 0 < (fs e.1).size) :
    ∃ (H1 : Finset Node) (n : ℕ),
      (∀ w ∈ H1, w ∈ keys g) ∧ PC g H1 ∧ Saturated g fs θ H1 ∧
      (∀ T : Finset Node, PC g T → Saturated g fs θ T → H1 ⊆ T) ∧
      partition_by_feerate g fs θ = .ok
        ((g.filter (fun e => decide (e.1 ∉ H1))).map (fun e => (e.1, aggOf g fs H1 e.1)),
         (keys g).filter (fun v => v ∈ H1)) ∧
      partitionPasses g fs θ = .ok n ∧ n ≤ g.length + 1 := by
  have hcard : ((keys g).toFinset \ (∅ : Finset Node)).card < g.length + 1 := by
    rw [Finset.sdiff_empty]
    have h1 : (keys g).toFinset.card ≤ (keys g).length := List.toFinset_card_le _
    have h2 : (keys g).length = g.length := List.length_map _ _
    omega
  obtain ⟨tbl1, H1, n, hrun, _, hH1k, hpc1, hn, hcan1, hsat1, hleast1⟩ :=
    loop_spec g fs θ htopo hpos (g.length + 1) (fun _ => none) ∅
      (by intro w hw; simp at hw) (by intro w hw p _; simp at hw)
      (by intro v a hv; simp at hv) hcard
  refine ⟨H1, n, hH1k, hpc1, hsat1, fun T hp hs => hleast1 T hp hs (Finset.empty_subset T),
    ?_, ?_, ?_⟩
  · unfold partition_by_feerate
    rw [hrun]
    dsimp only
    rw [resultLtE_spec tbl1 H1 (aggOf g fs H1) g hcan1]
  · unfold partitionPasses
    rw [hrun]
  · have : ((keys g).toFinset \ (∅ : Finset Node)).card ≤ g.length := by
      rw [Finset.sdiff_empty]
      have h1 : (keys g).toFinset.card ≤ (keys g).length := List.toFinset_card_le _
      have h2 : (keys g).length = g.length := List.length_map _ _
      omega
    omega

/-! ### Helper lemmas for the claims -/

theorem lookupG_none_of_not_mem {g : Graph} {v : Node} (h : v ∉ keys g) :
    lookupG g v = none := by
  cases hl : lookupG g v with
  | none => rfl
  | some ps => exact absurd (lookupG_isSome.mp (by rw [hl]; rfl)) h

theorem sameGraph_of_lookups {g1 g2 : Graph}
    (h1 : ∀ v ∈ keys g1, lookupG g1 v = lookupG g2 v)
    (h2 : ∀ v ∈ keys g2, lookupG g1 v = lookupG g2 v) : SameGraph g1 g2 := by
  intro v
  by_cases hv1 : v ∈ keys g1
  · exact h1 v hv1
  · by_cases hv2 : v ∈ keys g2
    · exact h2 v hv2
    · rw [lookupG_none_of_not_mem hv1, lookupG_none_of_not_mem hv2]

/-- Unpacked form of the master specification, phrased on the components an
`ok` result was matched into. -/
theorem partition_cases (g : Graph) (fs : Node → fee_sz) (θ : ℚ)
    (htopo : topoOK [] g = true) (hpos : ∀ e ∈ g, 0 < (fs e.1).size)
    (lt : List (Node × fee_sz)) (ge : List Node)
    (hok : partition_by_feerate g fs θ = .ok (lt, ge)) :
    ∃ H1 : Finset Node,
      (∀ w ∈ H1, w ∈ keys g) ∧ PC g H1 ∧ Saturated g fs θ H1 ∧
      (∀ T : Finset Node, PC g T → Saturated g fs θ T → H1 ⊆ T) ∧
      lt = (g.filter (fun e => decide (e.1 ∉ H1))).map (fun e => (e.1, aggOf g fs H1 e.1)) ∧
      ge = (keys g).filter (fun v => decide (v ∈ H1)) := by
  obtain ⟨H1, n, hH1k, hpc, hsat, hleast, hrun, _, _⟩ := partition_spec g fs θ htopo hpos
  rw [hok] at hrun
  injection hrun with hrun
  obtain ⟨hlt, hge⟩ := Prod.mk.inj hrun
  exact ⟨H1, hH1k, hpc, hsat, hleast, hlt, hge⟩

theorem mem_filter_keys_iff {g : Graph} {H1 : Finset Node} {v : Node} :
    v ∈ (keys g).filter (fun w => decide (w ∈ H1)) ↔ v ∈ keys g ∧ v ∈ H1 := by
  rw [List.mem_filter]
  simp

theorem lt_map_fst (g : Graph) (f : Node → fee_sz) (H1 : Finset Node) :
    ((g.filter (fun e => decide (e.1 ∉ H1))).map (fun e => (e.1, f e.1))).map Prod.fst =
      (keys g).filter (fun v => decide (v ∉ H1)) := by
  rw [List.map_map]
  have h1 : (Prod.fst ∘ fun e : Node × List Node => (e.1, f e.1)) =
      (fun e : Node × List Node => e.1) := rfl
  rw [h1]
  have h2 : (fun e : Node × List Node => decide (e.1 ∉ H1)) =
      ((fun v => decide (v ∉ H1)) ∘ (fun e : Node × List Node => e.1)) := rfl
  rw [h2, ← List.map_filter]
  rfl

theorem mem_lt_iff {g : Graph} (hnd : (keys g).Nodup) {f : Node → fee_sz} {H1 : Finset Node}
    {v : Node} {a : fee_sz} :
    (v, a) ∈ (g.filter (fun e => decide (e.1 ∉ H1))).map (fun e => (e.1, f e.1)) ↔
      v ∈ keys g ∧ v ∉ H1 ∧ a = f v := by
  constructor
  · intro h
    obtain ⟨e, he, heq⟩ := List.mem_map.mp h
    obtain ⟨heg, hepred⟩ := List.mem_filter.mp he
    obtain ⟨hv, ha⟩ := Prod.mk.inj heq
    refine ⟨List.mem_map.mpr ⟨e, heg, hv⟩, ?_, ?_⟩
    · rw [← hv]
      simpa using hepred
    · rw [← ha, hv]
  · rintro ⟨hv, hvH, rfl⟩
    obtain ⟨ps, hmem⟩ := mem_keys_iff.mp hv
    refine List.mem_map.mpr ⟨(v, ps), List.mem_filter.mpr ⟨hmem, by simpa using hvH⟩, rfl⟩

/-! ### A missing parent always surfaces as an error -/

theorem closure_keys_general (g : Graph) :
    ∀ (fuel : ℕ) (todo : List Node) (H H1 : Finset Node),
      closure g fuel todo H = .ok H1 → ∀ w ∈ H1, w ∈ H ∨ w ∈ keys g := by
  intro fuel
  induction fuel with
  | zero =>
    intro todo H H1 h w hw
    cases todo with
    | nil => simp only [closure] at h; injection h with h; rw [← h] at hw; exact Or.inl hw
    | cons t todo => simp [closure] at h
  | succ fuel ih =>
    intro todo H H1 h w hw
    cases todo with
    | nil => simp only [closure] at h; injection h with h; rw [← h] at hw; exact Or.inl hw
    | cons t todo =>
      simp only [closure] at h
      by_cases ht : t ∈ H
      · rw [if_pos ht] at h
        exact ih todo H H1 h w hw
      · rw [if_neg ht] at h
        cases hlook : lookupG g t with
        | none => rw [hlook] at h; simp at h
        | some ps =>
          rw [hlook] at h
          rcases ih _ _ H1 h w hw with hw2 | hw2
          · rcases Finset.mem_insert.mp hw2 with rfl | hw2
            · exact Or.inr (List.mem_map.mpr ⟨_, lookupG_eq_some hlook, rfl⟩)
            · exact Or.inl hw2
          · exact Or.inr hw2

/-- Invariants of a pass on arbitrary (possibly malformed) input. -/
theorem passRun_inv (g : Graph) (fs : Node → fee_sz) (θ : ℚ) (clF : ℕ) :
    ∀ (rest : Graph) (tbl : Tbl) (H : Finset Node) (tbl1 : Tbl) (H1 : Finset Node)
      (prog : Bool),
      (∀ e ∈ rest, e ∈ g) →
      passRun g fs θ clF rest tbl H = .ok (tbl1, H1, prog) →
      (∀ w a, tbl w = some a → w ∈ keys g) →
      (∀ w ∈ H, w ∈ keys g) → PC g H →
      ((∀ w a, tbl1 w = some a → w ∈ keys g) ∧ (∀ w ∈ H1, w ∈ keys g) ∧ PC g H1 ∧
        H ⊆ H1 ∧ (prog = false → H1 = H)) := by
  intro rest
  induction rest with
  | nil =>
    intro tbl H tbl1 H1 prog _ h htd hHk hpc
    simp only [passRun] at h
    injection h with h
    obtain ⟨h1, h2⟩ := Prod.mk.inj h
    obtain ⟨h2, h3⟩ := Prod.mk.inj h2
    rw [← h1, ← h2]
    exact ⟨htd, hHk, hpc, Finset.Subset.refl H, fun _ => rfl⟩
  | cons e rest2 ih =>
    intro tbl H tbl1 H1 prog hsub h htd hHk hpc
    obtain ⟨txid, ps⟩ := e
    have htxk : txid ∈ keys g :=
      List.mem_map.mpr ⟨(txid, ps), hsub _ (List.mem_cons_self _ _), rfl⟩
    simp only [passRun] at h
    by_cases ht : txid ∈ H
    · rw [if_pos ht] at h
      exact ih tbl H tbl1 H1 prog (fun e he => hsub _ (List.mem_cons_of_mem _ he)) h htd hHk hpc
    · rw [if_neg ht] at h
      cases hsum : sumParentsE tbl H ps (fs txid) with
      | error e => rw [hsum] at h; simp at h
      | ok agg =>
        rw [hsum] at h
        simp only at h
        by_cases hz : agg.size = 0
        · rw [if_pos hz] at h; simp at h
        · rw [if_neg hz] at h
          have htd2 : ∀ w a, Tbl.set tbl txid agg w = some a → w ∈ keys g := by
            intro w a hw
            unfold Tbl.set at hw
            by_cases hwt : w = txid
            · rw [hwt]; exact htxk
            · rw [if_neg hwt] at hw; exact htd w a hw
          by_cases hq : agg.feerate < θ
          · rw [if_pos hq] at h
            exact ih _ H tbl1 H1 prog (fun e he => hsub _ (List.mem_cons_of_mem _ he)) h
              htd2 hHk hpc
          · rw [if_neg hq] at h
            cases hcl : closure g clF [txid] H with
            | error e => rw [hcl] at h; simp at h
            | ok Hc =>
              rw [hcl] at h
              injection h with h
              obtain ⟨h1, h2⟩ := Prod.mk.inj h
              obtain ⟨h2, h3⟩ := Prod.mk.inj h2
              rw [← h1, ← h2]
              refine ⟨htd2, ?_, ?_, closure_mono g clF [txid] H Hc hcl, ?_⟩
              · intro w hw
                rcases closure_keys_general g clF [txid] H Hc hcl w hw with hw2 | hw2
                · exact hHk w hw2
                · exact hw2
              · refine closure_pc g clF [txid] H Hc ?_ hcl
                intro w hw q hq
                exact Or.inl (hpc w hw q hq)
              · intro hfalse
                rw [← h3] at hfalse
                simp at hfalse

theorem sumParentsE_err (tbl : Tbl) (H : Finset Node) :
    ∀ (ps : List Node), (∃ p ∈ ps, p ∉ H ∧ tbl p = none) →
      ∀ acc, ∃ e, sumParentsE tbl H ps acc = .error e := by
  intro ps
  induction ps with
  | nil => rintro ⟨p, hp, _⟩; simp at hp
  | cons q ps ih =>
    rintro ⟨p, hp, hpH, hptbl⟩ acc
    rcases List.mem_cons.mp hp with rfl | hp
    · simp only [sumParentsE, if_neg hpH, hptbl]
      exact ⟨.keyError, rfl⟩
    · by_cases hqH : q ∈ H
      · simp only [sumParentsE, if_pos hqH]
        exact ih ⟨p, hp, hpH, hptbl⟩ acc
      · simp only [sumParentsE, if_neg hqH]
        cases hq : tbl q with
        | none => exact ⟨.keyError, rfl⟩
        | some a => exact ih ⟨p, hp, hpH, hptbl⟩ _

/-- A full (progress-free) pass cannot complete while some unaccepted entry
references a parent outside the key set. -/
theorem passRun_false_reaches (g : Graph) (fs : Node → fee_sz) (θ : ℚ) (clF : ℕ)
    (v : Node) (ps : List Node) (p : Node) (hpk : p ∉ keys g) (hpps : p ∈ ps) :
    ∀ (rest : Graph) (tbl : Tbl) (H : Finset Node) (tbl1 : Tbl) (H1 : Finset Node),
      (∀ e ∈ rest, e ∈ g) →
      (∀ w a, tbl w = some a → w ∈ keys g) →
      (∀ w ∈ H, w ∈ keys g) →
      (v, ps) ∈ rest → v ∉ H →
      passRun g fs θ clF rest tbl H ≠ .ok (tbl1, H1, false) := by
  intro rest
  induction rest with
  | nil =>
    intro tbl H tbl1 H1 _ _ _ hmem _
    simp at hmem
  | cons e rest2 ih =>
    intro tbl H tbl1 H1 hsub htd hHk hmem hvH h
    obtain ⟨w, qs⟩ := e
    rcases List.mem_cons.mp hmem with heq | hmem2
    · obtain ⟨rfl, rfl⟩ := Prod.mk.inj heq
      simp only [passRun, if_neg hvH] at h
      have hpH : p ∉ H := fun hc => hpk (hHk p hc)
      have hptbl : tbl p = none := by
        cases hp : tbl p with
        | none => rfl
        | some a => exact absurd (htd p a hp) hpk
      obtain ⟨e2, herr⟩ := sumParentsE_err tbl H ps ⟨p, hpps, hpH, hptbl⟩ (fs v)
      rw [herr] at h
      simp at h
    · simp only [passRun] at h
      by_cases ht : w ∈ H
      · rw [if_pos ht] at h
        exact ih tbl H tbl1 H1 (fun e he => hsub _ (List.mem_cons_of_mem _ he)) htd hHk
          hmem2 hvH h
      · rw [if_neg ht] at h
        cases hsum : sumParentsE tbl H qs (fs w) with
        | error e2 => rw [hsum] at h; simp at h
        | ok agg =>
          rw [hsum] at h
          simp only at h
          by_cases hz : agg.size = 0
          · rw [if_pos hz] at h; simp at h
          · rw [if_neg hz] at h
            by_cases hq : agg.feerate < θ
            · rw [if_pos hq] at h
              have hwk : w ∈ keys g :=
                List.mem_map.mpr ⟨(w, qs), hsub _ (List.mem_cons_self _ _), rfl⟩
              refine ih _ H tbl1 H1 (fun e he => hsub _ (List.mem_cons_of_mem _ he)) ?_ hHk
                hmem2 hvH h
              intro x a hx
              unfold Tbl.set at hx
              by_cases hxw : x = w
              · rw [hxw]; exact hwk
              · rw [if_neg hxw] at hx; exact htd x a hx
            · rw [if_neg hq] at h
              cases hcl : closure g clF [w] H with
              | error e2 => rw [hcl] at h; simp at h
              | ok Hc =>
                rw [hcl] at h
                injection h with h
                have := (Prod.mk.inj (Prod.mk.inj h).2).2
                simp at this

/-- The whole loop can never return successfully while the graph references a
parent outside its key set. -/
theorem loop_not_ok_missing (g : Graph) (fs : Node → fee_sz) (θ : ℚ) (clF : ℕ)
    (hnd : (keys g).Nodup) (v : Node) (ps : List Node) (p : Node)
    (hmem : (v, ps) ∈ g) (hp : p ∈ ps) (hpk : p ∉ keys g) :
    ∀ (fuel : ℕ) (tbl : Tbl) (H : Finset Node),
      (∀ w a, tbl w = some a → w ∈ keys g) → (∀ w ∈ H, w ∈ keys g) → PC g H →
      ∀ r, loop g fs θ clF fuel tbl H ≠ .ok r := by
  intro fuel
  induction fuel with
  | zero => intro tbl H _ _ _ r h; simp [loop] at h
  | succ fuel ih =>
    intro tbl H htd hHk hpc r h
    simp only [loop] at h
    cases hpass : passRun g fs θ clF g tbl H with
    | error e => rw [hpass] at h; simp at h
    | ok res =>
      obtain ⟨tbl1, H1, prog⟩ := res
      rw [hpass] at h
      simp only at h
      obtain ⟨htd1, hH1k, hpc1, _, hHeq⟩ :=
        passRun_inv g fs θ clF g tbl H tbl1 H1 prog (fun e he => he) hpass htd hHk hpc
      cases prog with
      | true =>
        rw [if_pos rfl] at h
        cases hrec : loop g fs θ clF fuel tbl1 H1 with
        | error e => rw [hrec] at h; simp at h
        | ok r2 => exact ih tbl1 H1 htd1 hH1k hpc1 r2 hrec
      | false =>
        have hH1H : H1 = H := hHeq rfl
        by_cases hvH : v ∈ H
        · have hpps2 : p ∈ parentsOf g v := by
            rw [parentsOf_of_mem hnd hmem]
            exact hp
          exact hpk (hHk p (hpc v hvH p hpps2))
        · exact passRun_false_reaches g fs θ clF v ps p hpk hp g tbl H tbl1 H1
            (fun e he => he) htd hHk hmem hvH hpass

theorem partition_not_ok_missing (g : Graph) (fs : Node → fee_sz) (θ : ℚ)
    (hnd : (keys g).Nodup) (v : Node) (ps : List Node) (p : Node)
    (hmem : (v, ps) ∈ g) (hp : p ∈ ps) (hpk : p ∉ keys g) :
    ∀ r, partition_by_feerate g fs θ ≠ .ok r := by
  intro r h
  unfold partition_by_feerate at h
  cases hloop : loop g fs θ (clFuelOf g) (g.length + 1) (fun _ => none) ∅ with
  | error e => rw [hloop] at h; simp at h
  | ok res =>
    exact loop_not_ok_missing g fs θ (clFuelOf g) hnd v ps p hmem hp hpk
      (g.length + 1) (fun _ => none) ∅ (by intro w a hw; simp at hw)
      (by intro w hw; simp at hw) (by intro w hw; simp at hw) res hloop

/-- In a topologically sorted graph no later key is a parent of an earlier
key. -/
theorem keys_pairwise (g : Graph) (htopo : topoOK [] g = true) :
    (keys g).Pairwise (fun x y => y ∉ parentsOf g x) := by
  have hnd := topoOK_nodup_keys g [] htopo
  suffices h : ∀ (l : Graph) (seen : List Node), (∀ e ∈ l, e ∈ g) → topoOK seen l = true →
      (keys l).Pairwise (fun x y => y ∉ parentsOf g x) by
    exact h g [] (fun e he => he) htopo
  intro l
  induction l with
  | nil => intro seen _ _; simp [keys]
  | cons e rest ih =>
    intro seen hsub htopo2
    obtain ⟨v, ps⟩ := e
    simp only [topoOK, Bool.and_eq_true] at htopo2
    obtain ⟨⟨_, hps⟩, hrest⟩ := htopo2
    simp only [keys, List.map_cons]
    refine List.Pairwise.cons ?_ (ih _ (fun e he => hsub _ (List.mem_cons_of_mem _ he)) hrest)
    intro y hy hypar
    rw [parentsOf_of_mem hnd (hsub _ (List.mem_cons_self _ _))] at hypar
    have hyseen : y ∈ seen := by
      have := List.all_eq_true.mp hps y hypar
      exact List.elem_iff.mp (by simpa using this)
    exact topoOK_keys_not_seen rest (v :: seen) hrest y hy (by simp [hyseen])

theorem find_lt (g : Graph) (f : Node → fee_sz) (H1 : Finset Node) (p : Node) :
    ∀ l : Graph, p ∈ keys l → p ∉ H1 →
      ((l.filter (fun e => decide (e.1 ∉ H1))).map (fun e => (e.1, f e.1))).find?
        (fun e => e.1 == p) = some (p, f p) := by
  intro l
  induction l with
  | nil => intro hp _; simp [keys] at hp
  | cons e rest ih =>
    intro hp hpH
    by_cases hep : e.1 = p
    · simp only [List.filter_cons]
      rw [if_pos (by simp [hep, hpH])]
      have hbeq : (e.1 == p) = true := by simp [hep]
      simp only [List.map_cons, List.find?_cons, hbeq]
      rw [hep]
    · have hprest : p ∈ keys rest := by
        simp only [keys, List.map_cons, List.mem_cons] at hp
        rcases hp with rfl | hp
        · exact absurd rfl hep
        · exact hp
      simp only [List.filter_cons]
      by_cases hef : e.1 ∈ H1
      · rw [if_neg (by simp [hef])]
        exact ih hprest hpH
      · rw [if_pos (by simp [hef])]
        have hbeq : (e.1 == p) = false := by simp [hep]
        simp only [List.map_cons, List.find?_cons, hbeq]
        exact ih hprest hpH

/-! ### The claims -/

/-- C4: on every valid input, the accepted set returned by
`partition_by_feerate` is upward-closed: every (transitive) ancestor of an
accepted node is itself accepted. -/
theorem accepted_upward_closed (g : Graph) (fs : Node → fee_sz) (θ : ℚ)
    (lt : List (Node × fee_sz)) (ge : List Node)
    (hvalid : ValidInput g fs) (hok : partition_by_feerate g fs θ = .ok (lt, ge)) :
    ∀ v ∈ ge, ∀ a, Anc g a v → a ∈ ge := by
  obtain ⟨htopo, hpos⟩ := hvalid
  obtain ⟨H1, hH1k, hpc, _, _, _, hge⟩ := partition_cases g fs θ htopo hpos lt ge hok
  intro v hv a ha
  rw [hge] at hv ⊢
  obtain ⟨hvk, hvH⟩ := mem_filter_keys_iff.mp hv
  have haH : a ∈ H1 := hpc.anc_mem ha hvH
  exact mem_filter_keys_iff.mpr ⟨anc_mem_keys htopo ha hvk, haH⟩

/-- Witness for C4 at the child-pays-for-parent fixture with threshold 2:
both `a` and `b` are accepted, and `a` (the parent of the accepted `b`) is in
the accepted list. -/
theorem accepted_upward_closed_witness : "a" ∈ ["a", "b"] :=
  accepted_upward_closed gCP fsCP 2 [] ["a", "b"]
    (by with_unfolding_all decide) (by with_unfolding_all decide)
    "b" (by decide) "a" (Anc.of_parent (by decide))

/-- C5: on a fixed valid input, the accepted set is antitone in the
threshold: whatever a higher threshold accepts, a lower threshold accepts as
well. -/
theorem accepted_antitone_in_threshold (g : Graph) (fs : Node → fee_sz) (t1 t2 : ℚ)
    (lt1 ge1 : _) (lt2 ge2 : _)
    (hvalid : ValidInput g fs) (hle : t1 ≤ t2)
    (h1 : partition_by_feerate g fs t1 = .ok (lt1, ge1))
    (h2 : partition_by_feerate g fs t2 = .ok (lt2, ge2)) :
    ∀ v ∈ ge2, v ∈ ge1 := by
  obtain ⟨htopo, hpos⟩ := hvalid
  obtain ⟨H1, hH1k, hpc1, hsat1, _, _, hge1⟩ := partition_cases g fs t1 htopo hpos lt1 ge1 h1
  obtain ⟨H2, hH2k, hpc2, hsat2, hleast2, _, hge2⟩ := partition_cases g fs t2 htopo hpos lt2 ge2 h2
  have hsub : H2 ⊆ H1 := by
    refine hleast2 H1 hpc1 ?_
    intro v hv hvH
    have hs1 := hsat1 v hv hvH
    have hsz := aggOf_size_pos g fs H1 htopo hpos v hv
    unfold surOf at hs1 ⊢
    nlinarith
  intro v hv
  rw [hge2] at hv
  rw [hge1]
  obtain ⟨hvk, hvH⟩ := mem_filter_keys_iff.mp hv
  exact mem_filter_keys_iff.mpr ⟨hvk, hsub hvH⟩

/-- Witness for C5 on the single-transaction fixture: threshold 4 accepts
`a`, and so does the lower threshold 1. -/
theorem accepted_antitone_in_threshold_witness : "a" ∈ ["a"] :=
  accepted_antitone_in_threshold gSingle fsSingle 1 4 [] ["a"] [] ["a"]
    (by with_unfolding_all decide) (by norm_num)
    (by with_unfolding_all decide) (by with_unfolding_all decide)
    "a" (by decide)

/-- C9: the two returned lists partition the key set: no node is in both,
and every node of the input graph is in exactly one of them. -/
theorem partition_disjoint_cover (g : Graph) (fs : Node → fee_sz) (θ : ℚ)
    (lt : List (Node × fee_sz)) (ge : List Node)
    (hvalid : ValidInput g fs) (hok : partition_by_feerate g fs θ = .ok (lt, ge)) :
    (∀ v, ¬(v ∈ ge ∧ v ∈ lt.map Prod.fst)) ∧
    (∀ v, v ∈ keys g ↔ (v ∈ ge ∨ v ∈ lt.map Prod.fst)) := by
  obtain ⟨htopo, hpos⟩ := hvalid
  obtain ⟨H1, _, _, _, _, hlt, hge⟩ := partition_cases g fs θ htopo hpos lt ge hok
  have hfst : lt.map Prod.fst = (keys g).filter (fun v => decide (v ∉ H1)) := by
    rw [hlt]
    exact lt_map_fst g (aggOf g fs H1) H1
  constructor
  · rintro v ⟨hv1, hv2⟩
    rw [hge] at hv1
    rw [hfst] at hv2
    obtain ⟨_, hvH⟩ := mem_filter_keys_iff.mp hv1
    obtain ⟨_, hvnH⟩ := List.mem_filter.mp hv2
    simp at hvnH
    exact hvnH hvH
  · intro v
    constructor
    · intro hv
      by_cases hvH : v ∈ H1
      · left
        rw [hge]
        exact mem_filter_keys_iff.mpr ⟨hv, hvH⟩
      · right
        rw [hfst]
        exact List.mem_filter.mpr ⟨hv, by simpa using hvH⟩
    · intro hv
      rcases hv with hv | hv
      · rw [hge] at hv
        exact (mem_filter_keys_iff.mp hv).1
      · rw [hfst] at hv
        exact (List.mem_filter.mp hv).1

/-- Witness for C9 at the child-pays-for-parent fixture with threshold 21/10
(both rejected): `b` is a key, hence lands in one of the two lists. -/
theorem partition_disjoint_cover_witness :
    "b" ∈ keys gCP ↔
      ("b" ∈ ([] : List Node) ∨
        "b" ∈ ([("a", ⟨100, 300⟩), ("b", ⟨800, 400⟩)] : List (Node × fee_sz)).map Prod.fst) :=
  (partition_disjoint_cover gCP fsCP (21/10) [("a", ⟨100, 300⟩), ("b", ⟨800, 400⟩)] []
    (by with_unfolding_all decide) (by with_unfolding_all decide)).2 "b"

/-- C10: both returned lists enumerate their nodes in the enumeration order
of the input graph (they are the key list filtered by membership in the
accepted side), and since a valid input is topologically sorted, each output
list is itself topologically sorted (no element is a parent of an earlier
element). -/
theorem partition_preserves_enumeration_order (g : Graph) (fs : Node → fee_sz) (θ : ℚ)
    (lt : List (Node × fee_sz)) (ge : List Node)
    (hvalid : ValidInput g fs) (hok : partition_by_feerate g fs θ = .ok (lt, ge)) :
    (lt.map Prod.fst = (keys g).filter (fun v => !(ge.contains v))) ∧
    (ge = (keys g).filter (fun v => ge.contains v)) ∧
    (lt.map Prod.fst).Pairwise (fun x y => y ∉ parentsOf g x) ∧
    ge.Pairwise (fun x y => y ∉ parentsOf g x) := by
  obtain ⟨htopo, hpos⟩ := hvalid
  obtain ⟨H1, _, _, _, _, hlt, hge⟩ := partition_cases g fs θ htopo hpos lt ge hok
  have hfst : lt.map Prod.fst = (keys g).filter (fun v => decide (v ∉ H1)) := by
    rw [hlt]
    exact lt_map_fst g (aggOf g fs H1) H1
  have hgemem : ∀ v ∈ keys g, (ge.contains v = true ↔ v ∈ H1) := by
    intro v hv
    rw [List.elem_iff, hge]
    constructor
    · intro h
      exact (mem_filter_keys_iff.mp h).2
    · intro h
      exact mem_filter_keys_iff.mpr ⟨hv, h⟩
  refine ⟨?_, ?_, ?_, ?_⟩
  · rw [hfst]
    refine List.filter_congr ?_
    intro v hv
    by_cases hvH : v ∈ H1
    · have hb : ge.contains v = true := (hgemem v hv).mpr hvH
      rw [hb]
      simp [hvH]
    · have hb : ge.contains v = false :=
        Bool.eq_false_iff.mpr (fun hc => hvH ((hgemem v hv).mp hc))
      rw [hb]
      simp [hvH]
  · conv_lhs => rw [hge]
    refine List.filter_congr ?_
    intro v hv
    by_cases hvH : v ∈ H1
    · have hb : ge.contains v = true := (hgemem v hv).mpr hvH
      rw [hb]
      simp [hvH]
    · have hb : ge.contains v = false :=
        Bool.eq_false_iff.mpr (fun hc => hvH ((hgemem v hv).mp hc))
      rw [hb]
      simp [hvH]
  · rw [hfst]
    exact (keys_pairwise g htopo).sublist (List.filter_sublist _)
  · rw [hge]
    exact (keys_pairwise g htopo).sublist (List.filter_sublist _)

/-- Witness for C10 at the child-pays-for-parent fixture with threshold
21/10: both transactions are rejected, and the rejected list carries them in
key order `a` before `b`. -/
theorem partition_preserves_enumeration_order_witness :
    ([("a", (⟨100, 300⟩ : fee_sz)), ("b", ⟨800, 400⟩)].map Prod.fst) =
      (keys gCP).filter (fun v => !(([] : List Node).contains v)) :=
  (partition_preserves_enumeration_order gCP fsCP (21/10)
    [("a", ⟨100, 300⟩), ("b", ⟨800, 400⟩)] []
    (by with_unfolding_all decide) (by with_unfolding_all decide)).1

/-- C7 (amended): on valid input the while loop terminates, and it runs at
most N+1 passes (at most N passes that each accept at least one new node,
plus the final pass that detects that no progress was made).  The claimed
bound of N passes is off by one: see the counterexample. -/
theorem loop_pass_bound :
    (∀ (g : Graph) (fs : Node → fee_sz) (θ : ℚ), ValidInput g fs →
      ∃ n, partitionPasses g fs θ = .ok n) ∧
    (∀ (g : Graph) (fs : Node → fee_sz) (θ : ℚ) (n : ℕ), ValidInput g fs →
      partitionPasses g fs θ = .ok n → n ≤ g.length + 1) := by
  constructor
  · intro g fs θ hvalid
    obtain ⟨_, n, _, _, _, _, _, hn, _⟩ := partition_spec g fs θ hvalid.1 hvalid.2
    exact ⟨n, hn⟩
  · intro g fs θ n hvalid hok
    obtain ⟨_, n2, _, _, _, _, _, hn2, hbound⟩ := partition_spec g fs θ hvalid.1 hvalid.2
    rw [hok] at hn2
    injection hn2 with hn2
    rw [hn2]
    exact hbound

/-- Counterexample to C7 as stated: on the single-transaction fixture with
threshold 4, the transaction is accepted in the first pass and the loop still
needs a second pass to detect that no further progress is possible, so it
runs 2 passes on a 1-node graph — more than N = 1. -/
theorem loop_pass_count_exceeds_node_count :
    partitionPasses gSingle fsSingle 4 = .ok 2 ∧ gSingle.length < 2 := by
  with_unfolding_all decide

/-- Witness for C7 on the single-transaction fixture: 2 passes is within the
N+1 bound. -/
theorem loop_pass_bound_witness : (2 : ℕ) ≤ gSingle.length + 1 :=
  loop_pass_bound.2 gSingle fsSingle 4 2 (by with_unfolding_all decide)
    (by with_unfolding_all decide)

/-- C8: for every rejected node the harness's effective-value decrement is
`threshold * aggregate.size - aggregate.sats`, which is exactly the minimum
additional fee that lifts the aggregate's feerate to the threshold; and on
the single-transaction fixture with threshold 5 the rejected aggregate is
(400,100) with fee-bump 5·100-400 = 100. -/
theorem ev_decrement_minimal_fee_bump :
    (∀ (g : Graph) (fs : Node → fee_sz) (θ : ℚ) (lt : List (Node × fee_sz)) (ge : List Node),
      ValidInput g fs → partition_by_feerate g fs θ = .ok (lt, ge) →
      ∀ v a, (v, a) ∈ lt →
        (v, θ * a.size - a.sats) ∈ ev_decrement θ lt ∧
        (a.sats + (θ * a.size - a.sats)) / a.size = θ ∧
        (∀ x : ℚ, θ ≤ (a.sats + x) / a.size → θ * a.size - a.sats ≤ x)) ∧
    (partition_by_feerate gSingle fsSingle 5 = .ok ([("a", ⟨400, 100⟩)], []) ∧
      ev_decrement 5 [("a", ⟨400, 100⟩)] = [("a", 100)]) := by
  constructor
  · intro g fs θ lt ge hvalid hok v a hmem
    obtain ⟨htopo, hpos⟩ := hvalid
    obtain ⟨H1, _, _, _, _, hlt, _⟩ := partition_cases g fs θ htopo hpos lt ge hok
    have hnd := topoOK_nodup_keys g [] htopo
    have hmem2 := hmem
    rw [hlt] at hmem2
    obtain ⟨hvk, hvH, ha⟩ := (mem_lt_iff hnd).mp hmem2
    have hsz : 0 < a.size := by
      rw [ha]
      exact aggOf_size_pos g fs H1 htopo hpos v hvk
    refine ⟨List.mem_map.mpr ⟨(v, a), hmem, rfl⟩, ?_, ?_⟩
    · field_simp
    · intro x hx
      rw [le_div_iff hsz] at hx
      linarith
  · constructor
    · with_unfolding_all decide
    · with_unfolding_all decide

/-- Witness for C8 on the single-transaction fixture: the decrement pair
("a", 100) is produced and adding it yields feerate exactly 5. -/
theorem ev_decrement_minimal_fee_bump_witness :
    ("a", (100 : ℚ)) ∈ ev_decrement 5 [("a", ⟨400, 100⟩)] := by
  have h := (ev_decrement_minimal_fee_bump.1 gSingle fsSingle 5 [("a", ⟨400, 100⟩)] []
    (by with_unfolding_all decide) (by with_unfolding_all decide)
    "a" ⟨400, 100⟩ (by decide)).1
  have heq : (5 : ℚ) * (100 : ℚ) - 400 = 100 := by norm_num
  rwa [show ((⟨400, 100⟩ : fee_sz)).size = (100 : ℚ) from rfl,
    show ((⟨400, 100⟩ : fee_sz)).sats = (400 : ℚ) from rfl, heq] at h

/-- C1 (amended): the ancestor aggregate stored for each rejected node is
its own fee/size plus the sum of the stored aggregates of its parents that
are outside the accepted set.  Consequently an ancestor reachable through
several rejected parents contributes once per such parent, not exactly once
(see the counterexample). -/
theorem rejected_aggregate_parent_recursion (g : Graph) (fs : Node → fee_sz) (θ : ℚ)
    (lt : List (Node × fee_sz)) (ge : List Node)
    (hvalid : ValidInput g fs) (hok : partition_by_feerate g fs θ = .ok (lt, ge)) :
    ∀ v a, (v, a) ∈ lt →
      a = fs v +
        (((parentsOf g v).filter (fun p => !(ge.contains p))).map (lookupLt lt)).sum := by
  obtain ⟨htopo, hpos⟩ := hvalid
  obtain ⟨H1, hH1k, _, _, _, hlt, hge⟩ := partition_cases g fs θ htopo hpos lt ge hok
  have hnd := topoOK_nodup_keys g [] htopo
  intro v a hmem
  rw [hlt] at hmem
  obtain ⟨hvk, hvH, ha⟩ := (mem_lt_iff hnd).mp hmem
  obtain ⟨ps, hvmem⟩ := mem_keys_iff.mp hvk
  have hps : parentsOf g v = ps := parentsOf_of_mem hnd hvmem
  rw [ha, aggOf_rec g fs H1 htopo hvmem, hps]
  congr 1
  have hgemem : ∀ p ∈ keys g, (ge.contains p = true ↔ p ∈ H1) := by
    intro p hp
    rw [List.elem_iff, hge]
    constructor
    · intro h
      exact (mem_filter_keys_iff.mp h).2
    · intro h
      exact mem_filter_keys_iff.mpr ⟨hp, h⟩
  have hfeq : ps.filter (fun p => !(ge.contains p)) = ps.filter (fun p => decide (p ∉ H1)) := by
    refine List.filter_congr ?_
    intro p hp
    have hpk : p ∈ keys g := parent_mem_keys htopo hvmem p hp
    by_cases hpH : p ∈ H1
    · have hb : ge.contains p = true := (hgemem p hpk).mpr hpH
      rw [hb]
      simp [hpH]
    · have hb : ge.contains p = false :=
        Bool.eq_false_iff.mpr (fun hc => hpH ((hgemem p hpk).mp hc))
      rw [hb]
      simp [hpH]
  rw [hfeq]
  congr 1
  refine List.map_congr_left ?_
  intro p hp
  obtain ⟨hpps, hppred⟩ := List.mem_filter.mp hp
  have hpk : p ∈ keys g := parent_mem_keys htopo hvmem p hpps
  have hpH : p ∉ H1 := by simpa using hppred
  unfold lookupLt
  rw [hlt, find_lt g (aggOf g fs H1) H1 p g hpk hpH]
  rfl

/-- Counterexample to C1 as stated: in the example-D fixture at threshold
1000 nothing is accepted; the strict ancestors of `d` are exactly `a`, `b`
and `c`, yet the aggregate stored for `d` is (2200,3500), not
own + a + b + c = (2000,2500) — `a` is counted three times (through each of
the parents `a`, `b` and `c`). -/
theorem rejected_aggregate_counts_shared_ancestor_repeatedly :
    Anc gDiamond "a" "d" ∧ Anc gDiamond "b" "d" ∧ Anc gDiamond "c" "d" ∧
    ValidInput gDiamond fsDiamond ∧
    partition_by_feerate gDiamond fsDiamond 1000 =
      .ok ([("a", ⟨100, 500⟩), ("b", ⟨900, 1000⟩), ("c", ⟨1100, 1000⟩),
        ("d", ⟨2200, 3500⟩)], []) ∧
    (⟨2200, 3500⟩ : fee_sz) ≠
      fsDiamond "d" + (fsDiamond "a" + (fsDiamond "b" + fsDiamond "c")) := by
  refine ⟨Anc.of_parent (by decide), Anc.of_parent (by decide), Anc.of_parent (by decide),
    ?_, ?_, ?_⟩
  · with_unfolding_all decide
  · with_unfolding_all rfl
  · with_unfolding_all decide

/-- Witness for C1 at the example-D fixture with threshold 1000: `d`'s stored
aggregate is its own fee/size plus the stored aggregates of its three
not-accepted parents. -/
theorem rejected_aggregate_parent_recursion_witness :
    (⟨2200, 3500⟩ : fee_sz) =
      fsDiamond "d" +
        (((parentsOf gDiamond "d").filter
            (fun p => !(([] : List Node).contains p))).map
          (lookupLt [("a", ⟨100, 500⟩), ("b", ⟨900, 1000⟩), ("c", ⟨1100, 1000⟩),
            ("d", ⟨2200, 3500⟩)])).sum :=
  rejected_aggregate_parent_recursion gDiamond fsDiamond 1000
    [("a", ⟨100, 500⟩), ("b", ⟨900, 1000⟩), ("c", ⟨1100, 1000⟩), ("d", ⟨2200, 3500⟩)] []
    (by with_unfolding_all decide) (by with_unfolding_all rfl)
    "d" ⟨2200, 3500⟩ (by decide)

/-- C3 (amended): on valid input the partition always returns a full result,
and whenever a referenced parent is absent from the graph's keys the
computation fails (with an untyped KeyError-style exception rather than a
typed Malformed-Graph error).  Contrary to the claim, a node size that is
not strictly positive is not checked up front: only a zero aggregate size
fails (at the feerate division), and a negative size is not detected at all
(see the counterexample). -/
theorem partition_error_behavior :
    (∀ (g : Graph) (fs : Node → fee_sz) (θ : ℚ), ValidInput g fs →
      ∃ lt ge, partition_by_feerate g fs θ = .ok (lt, ge)) ∧
    (∀ (g : Graph) (fs : Node → fee_sz) (θ : ℚ) (v p : Node) (ps : List Node),
      (keys g).Nodup → (v, ps) ∈ g → p ∈ ps → p ∉ keys g →
      ∀ r, partition_by_feerate g fs θ ≠ .ok r) := by
  constructor
  · intro g fs θ hvalid
    obtain ⟨H1, n, _, _, _, _, hok, _, _⟩ := partition_spec g fs θ hvalid.1 hvalid.2
    exact ⟨_, _, hok⟩
  · intro g fs θ v p ps hnd hmem hp hpk
    exact partition_not_ok_missing g fs θ hnd v ps p hmem hp hpk

/-- Counterexample to C3 as stated: a strictly negative size is "not strictly
positive", yet the partition does not fail — it happily computes a negative
feerate and returns a full result. -/
theorem partition_accepts_negative_size :
    ¬(0 < (fsSingleNeg "a").size) ∧
    partition_by_feerate gSingle fsSingleNeg 5 = .ok ([("a", ⟨400, -100⟩)], []) := by
  constructor
  · with_unfolding_all decide
  · with_unfolding_all decide

/-- Witness for C3 on the fixture with the missing parent `zz`: the partition
never returns a result. -/
theorem partition_error_behavior_witness :
    partition_by_feerate gMissing (fun _ => ⟨1, 1⟩) 1 ≠ .ok ([], []) :=
  partition_error_behavior.2 gMissing (fun _ => ⟨1, 1⟩) 1 "b" "zz" ["zz"]
    (by decide) (by decide) (by decide) (by decide) ([], [])

/-- C2: the final partition does not depend on the enumeration order of the
graph: two valid enumerations of the same node-to-parents mapping accept
exactly the same nodes.  In particular the two enumerations of the
multi-pass fixture (b before c, and c before b) at threshold 1 both accept
all of a, b, c. -/
theorem partition_enumeration_order_irrelevant :
    (∀ (g1 g2 : Graph) (fs : Node → fee_sz) (θ : ℚ)
      (lt1 : List (Node × fee_sz)) (ge1 : List Node)
      (lt2 : List (Node × fee_sz)) (ge2 : List Node),
      ValidInput g1 fs → ValidInput g2 fs → SameGraph g1 g2 →
      partition_by_feerate g1 fs θ = .ok (lt1, ge1) →
      partition_by_feerate g2 fs θ = .ok (lt2, ge2) →
      ∀ v, v ∈ ge1 ↔ v ∈ ge2) ∧
    (partition_by_feerate gMulti fsMulti 1 = .ok ([], ["a", "b", "c"]) ∧
      partition_by_feerate gMultiRev fsMulti 1 = .ok ([], ["a", "c", "b"])) := by
  constructor
  · intro g1 g2 fs θ lt1 ge1 lt2 ge2 hv1 hv2 hsg h1 h2
    obtain ⟨htopo1, hpos1⟩ := hv1
    obtain ⟨htopo2, hpos2⟩ := hv2
    have hsg2 : SameGraph g2 g1 := fun v => (hsg v).symm
    obtain ⟨H1, hH1k, hpc1, hsat1, hleast1, _, hge1⟩ :=
      partition_cases g1 fs θ htopo1 hpos1 lt1 ge1 h1
    obtain ⟨H2, hH2k, hpc2, hsat2, hleast2, _, hge2⟩ :=
      partition_cases g2 fs θ htopo2 hpos2 lt2 ge2 h2
    have hpc21 : PC g1 H2 := by
      intro v hv q hq
      rw [hsg.parentsOf_eq] at hq
      exact hpc2 v hv q hq
    have hsat21 : Saturated g1 fs θ H2 := by
      intro v hv hvH
      rw [surOf_congr hsg htopo1 htopo2 fs θ H2 v hv]
      exact hsat2 v ((hsg.keys_mem_iff v).mp hv) hvH
    have hpc12 : PC g2 H1 := by
      intro v hv q hq
      rw [hsg2.parentsOf_eq] at hq
      exact hpc1 v hv q hq
    have hsat12 : Saturated g2 fs θ H1 := by
      intro v hv hvH
      rw [surOf_congr hsg2 htopo2 htopo1 fs θ H1 v hv]
      exact hsat1 v ((hsg2.keys_mem_iff v).mp hv) hvH
    have hHeq : H1 = H2 :=
      Finset.Subset.antisymm (hleast1 H2 hpc21 hsat21) (hleast2 H1 hpc12 hsat12)
    intro v
    rw [hge1, hge2]
    rw [mem_filter_keys_iff, mem_filter_keys_iff, hHeq, hsg.keys_mem_iff]
  · constructor
    · with_unfolding_all decide
    · with_unfolding_all decide

/-- Witness for C2 on the two enumerations of the multi-pass fixture:
node `b` is accepted under both enumeration orders. -/
theorem partition_enumeration_order_irrelevant_witness :
    "b" ∈ ["a", "b", "c"] ↔ "b" ∈ ["a", "c", "b"] :=
  partition_enumeration_order_irrelevant.1 gMulti gMultiRev fsMulti 1
    [] ["a", "b", "c"] [] ["a", "c", "b"]
    (by with_unfolding_all decide) (by with_unfolding_all decide)
    (sameGraph_of_lookups (by decide) (by decide))
    (by with_unfolding_all decide) (by with_unfolding_all decide) "b"

end PaDemo
